import Mathlib

/-!
Verification of the placer file-placement daemon against its specification.

The Rust sources are shallowly embedded into Lean:
* byte strings (`&[u8]`, `&str`, `String`, `Vec<u8>`) become `List Nat` whose
  elements are intended to be `< 256`;
* machine integers are modelled as `Nat`/`Int`, with an explicit `% 2^32`
  where `u32` overflow can occur;
* fallible Rust functions returning `Result` become `Except`;
* calls into external crates (prost, ed25519, AES-SIV, SHA-256) are
  parameters of the embedded functions, so results hold for every behaviour
  of those crates; the cryptographic calls made by the pack layer are
  additionally recorded in an explicit call trace.
-/

deriving instance DecidableEq for Except

/-- Byte strings (`&[u8]` / `&str` viewed through `str::bytes`). -/
abbrev Bytes := List Nat

/-- Bytes of an ASCII string literal. -/
def strBytes (s : String) : Bytes := s.data.map Char.toNat

namespace Bech32k

/-- `MIN_LENGTH` from `bech32k.rs`. -/
def MIN_LENGTH : Nat := 8

/-- `MAX_LENGTH` from `bech32k.rs`. -/
def MAX_LENGTH : Nat := 90

/-- `CHARSET` from `bech32k.rs`, as ASCII byte values. -/
def CHARSET : Bytes := strBytes "qpzry9x8gf2tvdw0s3jn54khce6mua7l"

/-- `CHARSET_INVERSE` from `bech32k.rs` (an `[i8; 128]`). -/
def CHARSET_INVERSE : List Int := [
  -1, -1, -1, -1, -1, -1, -1, -1, -1, -1, -1, -1, -1, -1, -1, -1, -1, -1, -1, -1, -1, -1, -1, -1,
  -1, -1, -1, -1, -1, -1, -1, -1, -1, -1, -1, -1, -1, -1, -1, -1, -1, -1, -1, -1, -1, -1, -1, -1,
  15, -1, 10, 17, 21, 20, 26, 30, 7, 5, -1, -1, -1, -1, -1, -1, -1, 29, -1, 24, 13, 25, 9, 8, 23,
  -1, 18, 22, 31, 27, 19, -1, 1, 0, 3, 16, 11, 28, 12, 14, 6, 4, 2, -1, -1, -1, -1, -1, -1, 29,
  -1, 24, 13, 25, 9, 8, 23, -1, 18, 22, 31, 27, 19, -1, 1, 0, 3, 16, 11, 28, 12, 14, 6, 4, 2, -1,
  -1, -1, -1, -1]

/-- `GENERATOR_COEFFICIENTS` from `bech32k.rs`. -/
def GENERATOR_COEFFICIENTS : List Nat :=
  [0x3b6a57b2, 0x26508e6d, 0x1ea119fa, 0x3d4233dd, 0x2a1462b3]

/-- The bech32k separator `';'` as a byte. -/
def SEPARATOR : Nat := 59

/-- Error enum of `bech32k.rs`.  `CharInvalid`/`DataInvalid` carry the
offending byte exactly as in the source. -/
inductive Error where
  | separatorMissing
  | checksumInvalid
  | lengthInvalid
  | charInvalid (byte : Nat)
  | dataInvalid (byte : Nat)
  | paddingInvalid
  | caseInvalid
deriving DecidableEq

/-- The `for (i, coeff) in GENERATOR_COEFFICIENTS.iter().enumerate()` loop
body of `Checksum::polymod`: XOR in coefficient `i` whenever bit `i` of `b`
is set. -/
def applyCoeffs (b : Nat) (r : Nat) : Nat :=
  (List.range 5).foldl
    (fun acc i => if (b >>> i) &&& 1 = 1 then acc ^^^ GENERATOR_COEFFICIENTS.getD i 0 else acc) r

/-- One iteration of `Checksum::polymod`'s main loop (`result` is a `u32`
that stays below `2^30`, so no overflow reduction is needed). -/
def polymodStep (result v : Nat) : Nat :=
  applyCoeffs (result >>> 25) (((result &&& 0x1ffffff) <<< 5) ^^^ v)

/-- `Checksum::polymod` from `bech32k.rs`. -/
def polymod (values : List Nat) : Nat := values.foldl polymodStep 1

/-- `Checksum::expand_prefix` from `bech32k.rs`. -/
def expandPrefix (pfx : Bytes) : List Nat :=
  pfx.map (fun b => b >>> 5) ++ [0] ++ pfx.map (fun b => b &&& 0x1f)

/-- `Checksum::new` from `bech32k.rs`: the six 5-bit checksum symbols. -/
def checksumNew (pfx data : List Nat) : List Nat :=
  let pm := polymod (expandPrefix pfx ++ data ++ List.replicate 6 0) ^^^ 1
  (List.range 6).map (fun p => (pm >>> (5 * (5 - p))) &&& 0x1f)

/-- `Checksum::verify` from `bech32k.rs` (the `Result` is reconstructed at
the use site in `decode`). -/
def checksumVerify (pfx data : List Nat) : Bool :=
  polymod (expandPrefix pfx ++ data) = 1

/-- Fuel-indexed form of the `while bits >= dst` loop of
`Base32Converter::convert` (structural recursion so that closed instances
reduce; `fuel = bits` always suffices because `bits` strictly decreases). -/
def drainAux (dst max acc : Nat) : Nat → Nat → List Nat × Nat
  | 0, bits => ([], bits)
  | fuel + 1, bits =>
    if 0 < dst ∧ dst ≤ bits then
      let bits' := bits - dst
      let rest := drainAux dst max acc fuel bits'
      (((acc >>> bits') &&& max) :: rest.1, rest.2)
    else ([], bits)

/-- The `while bits >= dst` loop of `Base32Converter::convert`: emit
`dst`-bit groups from the top of the accumulator.  Returns the emitted
groups and the final `bits`; `acc` itself is not modified by the loop. -/
def drain (dst max acc bits : Nat) : List Nat × Nat := drainAux dst max acc bits bits

/-- The `for value in data` loop of `Base32Converter::convert`.  `acc` is a
`u32`, hence the explicit `% 2^32` on the shift.  Returns the emitted
groups together with the final accumulator and bit count. -/
def convertCore (src dst max : Nat) : List Nat → Nat → Nat → Except Error (List Nat × Nat × Nat)
  | [], acc, bits => .ok ([], acc, bits)
  | v :: rest, acc, bits =>
    if v >>> src ≠ 0 then .error (.dataInvalid (v % 256))
    else
      let acc' := (((acc <<< src) % 2 ^ 32) ||| v)
      let emitted := drain dst max acc' (bits + src)
      match convertCore src dst max rest acc' emitted.2 with
      | .error e => .error e
      | .ok (out, accF, bitsF) => .ok (emitted.1 ++ out, accF, bitsF)

/-- The `Base32Converter` enum from `bech32k.rs`. -/
inductive Base32Converter where
  | encode
  | decode
deriving DecidableEq

/-- `Base32Converter::convert` from `bech32k.rs`: `(src, dst)` is
`(8, 5)` when encoding and `(5, 8)` when decoding; after the main loop the
encoder pads the final partial group with zero bits while the decoder
rejects excessive or non-zero padding. -/
def Base32Converter.convert (c : Base32Converter) (data : List Nat) : Except Error (List Nat) :=
  match c with
  | .encode =>
    match convertCore 8 5 31 data 0 0 with
    | .error e => .error e
    | .ok (out, acc, bits) =>
      .ok (if bits > 0 then out ++ [(acc <<< (5 - bits)) &&& 31] else out)
  | .decode =>
    match convertCore 5 8 255 data 0 0 with
    | .error e => .error e
    | .ok (out, acc, bits) =>
      if bits ≥ 5 ∨ ((acc <<< (8 - bits)) &&& 255) ≠ 0 then .error .paddingInvalid
      else .ok out

/-- `encode` from `bech32k.rs`.  The source `.unwrap()`s the base32
conversion, which cannot fail on byte input; the `.error` branch is the
unreachable panic and returns a junk value. -/
def encode (pfx : Bytes) (data : Bytes) : Bytes :=
  match Base32Converter.encode.convert data with
  | .error _ => []
  | .ok base32Data =>
    pfx ++ [SEPARATOR] ++ (base32Data ++ checksumNew pfx base32Data).map (fun b => CHARSET.getD b 0)

/-- Rust's `as u8` cast of an `i8` value. -/
def i8AsU8 (v : Int) : Nat := (v % 256).toNat

/-- Is `b` an ASCII upper-case letter (`b'A'..=b'Z'`)? -/
def isUpperByte (b : Nat) : Prop := 65 ≤ b ∧ b ≤ 90

/-- Is `b` an ASCII lower-case letter (`b'a'..=b'z'`)? -/
def isLowerByte (b : Nat) : Prop := 97 ≤ b ∧ b ≤ 122

instance : DecidablePred isUpperByte := fun _ => instDecidableAnd
instance : DecidablePred isLowerByte := fun _ => instDecidableAnd

/-- The `for mut byte in prefix.bytes()` loop of `decode`: validate the
range `33..=126`, fold upper case to lower case while recording the case
flags, and accumulate the normalized bytes. -/
def prefixLoop : Bytes → Bool → Bool → Bytes → Except Error (Bytes × Bool × Bool)
  | [], hasLower, hasUpper, out => .ok (out, hasLower, hasUpper)
  | b :: rest, hasLower, hasUpper, out =>
    if 33 ≤ b ∧ b ≤ 126 then
      if isUpperByte b then prefixLoop rest hasLower true (out ++ [b + 32])
      else if isLowerByte b then prefixLoop rest true hasUpper (out ++ [b])
      else prefixLoop rest hasLower hasUpper (out ++ [b])
    else .error (.charInvalid b)

/-- Does `b` pass the character-validity `match` of `decode`'s data loop
(alphanumeric ASCII, excluding `1`, `B`, `I`, `O`, `b`, `i`, `o`)? -/
def dataCharOk (b : Nat) : Prop :=
  ((48 ≤ b ∧ b ≤ 57) ∨ (65 ≤ b ∧ b ≤ 90) ∨ (97 ≤ b ∧ b ≤ 122)) ∧
    ¬(b = 49 ∨ b = 66 ∨ b = 73 ∨ b = 79 ∨ b = 98 ∨ b = 105 ∨ b = 111)

instance : DecidablePred dataCharOk := fun _ => instDecidableAnd

/-- The `for mut byte in data.bytes()` loop of `decode`: validity check,
case folding with flag recording, then `CHARSET_INVERSE` lookup (with the
source's `as u8` cast of the `i8` table entry). -/
def dataLoop : Bytes → Bool → Bool → List Nat → Except Error (List Nat × Bool × Bool)
  | [], hasLower, hasUpper, out => .ok (out, hasLower, hasUpper)
  | b :: rest, hasLower, hasUpper, out =>
    if dataCharOk b then
      if isUpperByte b then
        dataLoop rest hasLower true (out ++ [i8AsU8 (CHARSET_INVERSE.getD (b + 32) 0)])
      else if isLowerByte b then
        dataLoop rest true hasUpper (out ++ [i8AsU8 (CHARSET_INVERSE.getD b 0)])
      else dataLoop rest hasLower hasUpper (out ++ [i8AsU8 (CHARSET_INVERSE.getD b 0)])
    else .error (.charInvalid b)

/-- `decode` from `bech32k.rs`.  `splitn(2, ';')` becomes
`takeWhile`/`dropWhile` on the first separator byte; the returned prefix is
the normalized (lower-cased) byte string, as in the source. -/
def decode (encoded : Bytes) : Except Error (Bytes × Bytes) :=
  if ¬ SEPARATOR ∈ encoded then .error .separatorMissing
  else if ¬ (MIN_LENGTH ≤ encoded.length ∧ encoded.length ≤ MAX_LENGTH) then .error .lengthInvalid
  else
    let pfx := encoded.takeWhile (fun b => b != SEPARATOR)
    let data := (encoded.dropWhile (fun b => b != SEPARATOR)).tail
    if pfx.isEmpty then .error .lengthInvalid
    else if data.length < 6 then .error .lengthInvalid
    else
      match prefixLoop pfx false false [] with
      | .error e => .error e
      | .ok (pfxBytes, hl1, hu1) =>
        match dataLoop data hl1 hu1 [] with
        | .error e => .error e
        | .ok (dataBytes, hasLower, hasUpper) =>
          if hasLower ∧ hasUpper then .error .caseInvalid
          else if checksumVerify pfxBytes dataBytes then
            match Base32Converter.decode.convert (dataBytes.take (dataBytes.length - 6)) with
            | .error e => .error e
            | .ok bytes => .ok (pfxBytes, bytes)
          else .error .checksumInvalid

end Bech32k

namespace Keyuri

/-- `ENCRYPTION_KEY_PREFIX` from `keyuri.rs`. -/
def ENCRYPTION_KEY_PREFIX : Bytes := strBytes "secret.key:aes256siv+hks256"

/-- `SIGNING_KEY_PREFIX` from `keyuri.rs`. -/
def SIGNING_KEY_PREFIX : Bytes := strBytes "secret.key:ed25519"

/-- `VERIFY_KEY_PREFIX` from `keyuri.rs`. -/
def VERIFY_KEY_PREFIX : Bytes := strBytes "public.key:ed25519"

/-- `FINGERPRINT_PREFIX` from `keyuri.rs`. -/
def FINGERPRINT_PREFIX : Bytes := strBytes "public.fingerprint:sha-256"

/-- `keyuri::fingerprint` from `keyuri.rs`:
`bech32k::encode(FINGERPRINT_PREFIX, Sha256::digest(keyuri))`.  The SHA-256
digest function of the `sha2` crate is a parameter of the embedding. -/
def fingerprint (sha256 : Bytes → Bytes) (keyuri : Bytes) : Bytes :=
  Bech32k.encode FINGERPRINT_PREFIX (sha256 keyuri)

end Keyuri

namespace PlacerPack

/-- Error kinds of `placer-pack/src/error.rs`. -/
inductive ErrorKind where
  | config
  | crypto
  | invalidKey
  | io
  | parse
  | serialization
deriving DecidableEq

/-- `placer_pack::error::Error`: an error kind together with its
description.  Descriptions keep the static part of the source's format
string; interpolated values are omitted. -/
structure Error where
  kind : ErrorKind
  msg : String
deriving DecidableEq

/-- Rendering of `bech32k::Error` through
`impl From<bech32k::Error> for Error` (`err!(InvalidKey, "{}", other)`);
the description is the static part of each `#[fail(display = ...)]`. -/
def ofBech32kError (e : Bech32k.Error) : Error :=
  match e with
  | .separatorMissing => ⟨.invalidKey, "missing separator character"⟩
  | .checksumInvalid => ⟨.invalidKey, "checksum mismatch"⟩
  | .lengthInvalid => ⟨.invalidKey, "invalid KeyURI length (min 8, max 90)"⟩
  | .charInvalid _ => ⟨.invalidKey, "character invalid"⟩
  | .dataInvalid _ => ⟨.invalidKey, "data invalid"⟩
  | .paddingInvalid => ⟨.invalidKey, "padding invalid"⟩
  | .caseInvalid => ⟨.invalidKey, "string contains mixed-case"⟩

/-- `PUBLIC_KEY_SIZE` from `crypto/signing/public_key.rs`. -/
def PUBLIC_KEY_SIZE : Nat := 32

/-- `SIGNATURE_SIZE` from `crypto/signing/public_key.rs`. -/
def SIGNATURE_SIZE : Nat := 64

/-- `crypto::PublicKey` (`[u8; PUBLIC_KEY_SIZE]`). -/
structure PublicKey where
  bytes : Bytes
deriving DecidableEq

/-- `PublicKey::from_keyuri` from `crypto/signing/public_key.rs`. -/
def PublicKey.fromKeyuri (keyuri : Bytes) : Except Error PublicKey :=
  match Bech32k.decode keyuri with
  | .error e => .error (ofBech32kError e)
  | .ok (pfx, bytes) =>
    if pfx ≠ Keyuri.VERIFY_KEY_PREFIX then .error ⟨.invalidKey, "invalid encryption key prefix"⟩
    else if bytes.length ≠ PUBLIC_KEY_SIZE then .error ⟨.invalidKey, "invalid key length"⟩
    else .ok ⟨bytes⟩

/-- `PublicKey::to_keyuri` from `crypto/signing/public_key.rs`. -/
def PublicKey.toKeyuri (pk : PublicKey) : Bytes :=
  Bech32k.encode Keyuri.VERIFY_KEY_PREFIX pk.bytes

/-- `PublicKey::to_fingerprint` from `crypto/signing/public_key.rs`. -/
def PublicKey.toFingerprint (sha256 : Bytes → Bytes) (pk : PublicKey) : Bytes :=
  Keyuri.fingerprint sha256 (pk.toKeyuri)

/-- `crypto::Encryptor`: the AES-256-SIV state is opaque (`handle` stands
for the HKDF-derived key material); `fingerprint` is the KeyURI fingerprint
computed in `Encryptor::from_keyuri`. -/
structure Encryptor where
  handle : Bytes
  fingerprint : Bytes
deriving DecidableEq

/-- Calls made into the external cryptographic primitives by the pack
layer, in order: Ed25519 verification (with its result), AEAD open, and
AEAD seal (each with the associated-data vector passed). -/
inductive CryptoCall where
  | verifyCall (message signature : Bytes) (ok : Bool)
  | openCall (ad : List Bytes) (ciphertext : Bytes)
  | sealCall (ad : List Bytes) (plaintext : Bytes)
deriving DecidableEq

/-- `PublicKey::verify` from `crypto/signing/public_key.rs`, with the
actual `ed25519` verification as a parameter; the call to it is traced.
`Signature::try_from` fails exactly on signatures that are not 64 bytes,
before any verification happens. -/
def PublicKey.verify (ed : Bytes → Bytes → Bytes → Bool) (pk : PublicKey)
    (message signature : Bytes) : Except Error Unit × List CryptoCall :=
  if signature.length ≠ SIGNATURE_SIZE then (.error ⟨.crypto, "invalid signature size"⟩, [])
  else
    let ok := ed pk.bytes message signature
    (if ok then .ok () else .error ⟨.crypto, "signature verification failed!"⟩,
     [.verifyCall message signature ok])

/-- `MAX_PACK_SIZE` from `pack.rs`. -/
def MAX_PACK_SIZE : Nat := 1048576

/-- `PACK_V0_MAGIC_STRING` from `pack.rs`. -/
def PACK_V0_MAGIC_STRING : Bytes := strBytes "placer-pack:v0.1"

/-- `MAX_PACK_TIMESTAMP_SKEW` from `pack.rs` (seconds). -/
def MAX_PACK_TIMESTAMP_SKEW : Int := 86400

/-- `protos::timestamp::Tai64n` (prost-generated): the raw 12-byte wire
value. -/
structure Tai64n where
  value : Bytes
deriving DecidableEq

/-- A parsed `uuid::Uuid`, identified by its canonical string form (the
only use the pack layer makes of it is `to_string`). -/
structure Uuid where
  str : Bytes
deriving DecidableEq

/-- `pack::Fingerprints` from `pack.rs`. -/
structure Fingerprints where
  signingKey : Bytes
  encryptionKey : Bytes
deriving DecidableEq

/-- `protos::pack::File` (prost-generated `PackFile`). -/
structure PackFile where
  filename : Bytes
  contentType : Bytes
  modifiedAt : Option Int
  body : Bytes
deriving DecidableEq

/-- `protos::pack::Payload` (prost-generated). -/
structure Payload where
  files : List PackFile
deriving DecidableEq

/-- `protos::pack::Pack` (prost-generated envelope). -/
structure PackProto where
  uuid : Bytes
  date : Option Tai64n
  signingKeyFingerprint : Bytes
  encryptionKeyFingerprint : Bytes
  signature : Bytes
  ciphertext : Bytes
deriving DecidableEq

/-- `pack::Pack` from `pack.rs`.  `date` is a `DateTime<Utc>`, modelled as
nanoseconds since the Unix epoch. -/
structure Pack where
  uuid : Uuid
  date : Int
  fingerprints : Option Fingerprints
  files : List PackFile
deriving DecidableEq

/-- Big-endian byte-string value. -/
def beBytesToNat (bs : Bytes) : Nat := bs.foldl (fun a b => a * 256 + b) 0

/-- Modelled from the spec: `Tai64n::to_datetime_utc` lives in the
prost-generated `protos::timestamp` module, which is code of this
repository not under `src/`.  Per §3/§9, TAI64N is the canonical 12-byte
encoding `{seconds, nanos}` whose first 8 bytes are the big-endian label
`2^62 + POSIX seconds` and whose last 4 bytes are the big-endian
nanosecond count; conversion to `DateTime<Utc>` (nanoseconds since the
Unix epoch) fails on malformed values. -/
def tai64nToDatetimeUtc (t : Tai64n) : Option Int :=
  if t.value.length = 12 then
    let secsLabel := beBytesToNat (t.value.take 8)
    let nanos := beBytesToNat (t.value.drop 8)
    if nanos < 1000000000 then
      some ((Int.ofNat secsLabel - 2 ^ 62) * 1000000000 + Int.ofNat nanos)
    else none
  else none

/-- Big-endian bytes of `n`, `w` bytes wide. -/
def natToBeBytes : Nat → Nat → Bytes
  | 0, _ => []
  | w + 1, n => natToBeBytes w (n / 256) ++ [n % 256]

/-- Modelled from the spec: `Tai64n::from(DateTime<Utc>)` lives in the
prost-generated `protos::timestamp` module, which is code of this
repository not under `src/`.  Inverse of `tai64nToDatetimeUtc` on
well-formed dates. -/
def tai64nFromDatetime (date : Int) : Tai64n :=
  let secs := date / 1000000000
  let nanos := (date % 1000000000).toNat
  ⟨natToBeBytes 8 (Int.toNat (2 ^ 62 + secs)) ++ natToBeBytes 4 nanos⟩

/-- `chrono::Duration::num_seconds` on a duration of `d` nanoseconds:
the number of whole seconds, truncated toward zero (`Int.div`). -/
def numSeconds (d : Int) : Int := Int.div d 1000000000

/-- The associated-data vector built at both AEAD call sites of `pack.rs`
(`encrypt_and_sign` and `verify_and_decrypt`): the TAI64N date bytes, the
encryption-key fingerprint and the signing-key fingerprint, in this
order. -/
def packAd (dateBytes encFp signFp : Bytes) : List Bytes := [dateBytes, encFp, signFp]

/-- External-crate operations used by `Pack::verify_and_decrypt`: prost
envelope decoding, UUID parsing, Ed25519 verification, AES-SIV opening and
prost payload decoding.  Each is an arbitrary parameter, so theorems hold
for every behaviour of these crates. -/
structure ExtOps where
  protoDecode : Bytes → Except Unit PackProto
  uuidParse : Bytes → Except Unit Uuid
  ed25519Verify : Bytes → Bytes → Bytes → Bool
  aeadOpen : Bytes → List Bytes → Bytes → Except Unit Bytes
  payloadDecode : Bytes → Except Unit Payload

/-- `Pack::verify_and_decrypt` from `pack.rs` (lines 129-203), with the
current time (`Utc::now()`, nanoseconds) passed explicitly and the crypto
calls traced.  The `key_lookup` capability is the caller-supplied closure
of the source. -/
def verifyAndDecrypt (ops : ExtOps)
    (keyLookup : Fingerprints → Uuid → Option (PublicKey × Encryptor))
    (now : Int) (bytes : Bytes) : Except Error Pack × List CryptoCall :=
  if bytes.length < PACK_V0_MAGIC_STRING.length then
    (.error ⟨.parse, "pack too short"⟩, [])
  else if bytes.take PACK_V0_MAGIC_STRING.length ≠ PACK_V0_MAGIC_STRING then
    (.error ⟨.parse, "pack does not start with magic string"⟩, [])
  else
    match ops.protoDecode (bytes.drop PACK_V0_MAGIC_STRING.length) with
    | .error _ => (.error ⟨.parse, "pack parsing error"⟩, [])
    | .ok proto =>
      match ops.uuidParse proto.uuid with
      | .error _ => (.error ⟨.parse, "invalid UUID"⟩, [])
      | .ok uuid =>
        let fingerprints : Fingerprints := ⟨proto.signingKeyFingerprint, proto.encryptionKeyFingerprint⟩
        match keyLookup fingerprints uuid with
        | none => (.error ⟨.invalidKey, "key lookup failed"⟩, [])
        | some (publicKey, encryptor) =>
          match proto.date with
          | none => (.error ⟨.parse, "date missing from pack file"⟩, [])
          | some dateProto =>
            match tai64nToDatetimeUtc dateProto with
            | none => (.error ⟨.parse, "couldn't parse date from pack file"⟩, [])
            | some date =>
              match publicKey.verify ops.ed25519Verify proto.ciphertext proto.signature with
              | (.error e, tr) => (.error e, tr)
              | (.ok _, tr) =>
                let ad := packAd dateProto.value proto.encryptionKeyFingerprint proto.signingKeyFingerprint
                let tr2 := tr ++ [.openCall ad proto.ciphertext]
                match ops.aeadOpen encryptor.handle ad proto.ciphertext with
                | .error _ => (.error ⟨.crypto, "decryption failed"⟩, tr2)
                | .ok plaintext =>
                  if MAX_PACK_TIMESTAMP_SKEW < numSeconds (date - now) then
                    (.error ⟨.parse, "bogus future timestamp on pack"⟩, tr2)
                  else
                    match ops.payloadDecode plaintext with
                    | .error _ => (.error ⟨.parse, "payload parsing error"⟩, tr2)
                    | .ok payload => (.ok ⟨uuid, date, some fingerprints, payload.files⟩, tr2)

/-- External operations used by `Pack::encrypt_and_sign`: the signer (its
public key and Ed25519 signing), AES-SIV sealing, prost encoding and
SHA-256 (for the signing-key fingerprint). -/
structure SignOps where
  signerPublicKey : Except Error PublicKey
  sign : Bytes → Except Error Bytes
  aeadSeal : Bytes → List Bytes → Bytes → Bytes
  payloadEncode : List PackFile → Bytes
  protoEncode : PackProto → Except Unit Bytes
  sha256 : Bytes → Bytes

/-- `Pack::encrypt_and_sign` from `pack.rs` (lines 207-246), with the
AEAD seal call traced.  `Pack::serialize`'s prost encoding is
`ops.payloadEncode`; its size check is inlined as in the source. -/
def encryptAndSign (ops : SignOps) (pack : Pack) (encryptor : Encryptor) :
    Except Error Bytes × List CryptoCall :=
  let date := tai64nFromDatetime pack.date
  let uuid := pack.uuid.str
  let encryptionKeyFingerprint := encryptor.fingerprint
  match ops.signerPublicKey with
  | .error e => (.error e, [])
  | .ok signingPublicKey =>
    let signingKeyFingerprint := signingPublicKey.toFingerprint ops.sha256
    let plaintext := ops.payloadEncode pack.files
    if plaintext.length > MAX_PACK_SIZE then (.error ⟨.serialization, "pack too large"⟩, [])
    else
      let ad := packAd date.value encryptionKeyFingerprint signingKeyFingerprint
      let ciphertext := ops.aeadSeal encryptor.handle ad plaintext
      let tr := [CryptoCall.sealCall ad plaintext]
      match ops.sign ciphertext with
      | .error e => (.error e, tr)
      | .ok signature =>
        match ops.protoEncode ⟨uuid, some date, signingKeyFingerprint,
                               encryptionKeyFingerprint, signature, ciphertext⟩ with
        | .error _ => (.error ⟨.serialization, "couldn't encode pack"⟩, tr)
        | .ok protoBytes => (.ok (PACK_V0_MAGIC_STRING ++ protoBytes), tr)

end PlacerPack

namespace Placer

/-- Error kinds of `src/error.rs` (the placer binary). -/
inductive ErrorKind where
  | config
  | hook
  | invalidKey
  | io
  | source
deriving DecidableEq

/-- `placer::error::Error`: kind plus the static part of the message. -/
structure Error where
  kind : ErrorKind
  msg : String
deriving DecidableEq

/-- An association map in iteration order, standing for a `BTreeMap`
(placer only relies on lookup and duplicate detection). -/
def mapContains {β : Type} (m : List (Bytes × β)) (k : Bytes) : Bool :=
  m.any (fun p => p.1 = k)

/-- `BTreeMap::get`. -/
def mapGet {β : Type} (m : List (Bytes × β)) (k : Bytes) : Option β :=
  (m.find? (fun p => p.1 = k)).map (fun p => p.2)

/-- `SigningKeyring::new` from `src/keyrings/signing.rs`, folded over the
labelled KeyURIs in `BTreeMap` iteration order.  Wraps any
`PublicKey::from_keyuri` failure as `InvalidKey("invalid Ed25519
KeyURI")` and rejects duplicate fingerprints with `InvalidKey("duplicate
signing key")`. -/
def signingKeyringNew (sha256 : Bytes → Bytes) :
    List (Bytes × Bytes) → List (Bytes × PlacerPack.PublicKey) →
    Except Error (List (Bytes × PlacerPack.PublicKey))
  | [], acc => .ok acc
  | (_label, encodedKey) :: rest, acc =>
    match PlacerPack.PublicKey.fromKeyuri encodedKey with
    | .error _ => .error ⟨.invalidKey, "invalid Ed25519 KeyURI"⟩
    | .ok publicKey =>
      let fp := publicKey.toFingerprint sha256
      if mapContains acc fp then .error ⟨.invalidKey, "duplicate signing key"⟩
      else signingKeyringNew sha256 rest (acc ++ [(fp, publicKey)])

/-- `EncryptionKeyring::new` from `src/keyrings/encryption.rs`: checks
only that each KeyURI string starts with `ENCRYPTION_KEY_PREFIX`, and that
the fingerprint of the raw string is not a duplicate. -/
def encryptionKeyringNew (sha256 : Bytes → Bytes) :
    List (Bytes × Bytes) → List (Bytes × Bytes) → Except Error (List (Bytes × Bytes))
  | [], acc => .ok acc
  | (_label, encodedKey) :: rest, acc =>
    if ¬ Keyuri.ENCRYPTION_KEY_PREFIX.isPrefixOf encodedKey then
      .error ⟨.invalidKey, "invalid encryption KeyURI"⟩
    else
      let fp := Keyuri.fingerprint sha256 encodedKey
      if mapContains acc fp then .error ⟨.invalidKey, "duplicate encryption key"⟩
      else encryptionKeyringNew sha256 rest (acc ++ [(fp, encodedKey)])

/-- `FILENAME_PLACEHOLDER` from `src/hook.rs`. -/
def FILENAME_PLACEHOLDER : Bytes := strBytes "%f"

/-- `hook::Hook` from `src/hook.rs` (paths and arguments as byte
strings). -/
structure Hook where
  path : Bytes
  uid : Nat
  gid : Nat
  args : List Bytes
deriving DecidableEq

/-- The `%f` substitution performed when building the hook's `Command`. -/
def substArgs (args : List Bytes) (filePath : Bytes) : List Bytes :=
  args.map (fun a => if a = FILENAME_PLACEHOLDER then filePath else a)

/-- How a spawned hook subprocess terminated. -/
inductive ExitStatus where
  | code (c : Int)
  | signal (sig : Nat)
deriving DecidableEq

/-- The operating system's response to running a hook: the spawn (or wait)
syscall failed, or the subprocess terminated with the given status. -/
inductive HookOutcome where
  | spawnErr
  | status (es : ExitStatus)
deriving DecidableEq

/-- Hook execution oracle: what happens when a given hook is spawned with
the given (already `%f`-substituted) arguments. -/
def HookExec : Type := Hook → List Bytes → HookOutcome

/-- `Hook::run` from `src/hook.rs` (lines 87-120): spawn failure, non-zero
exit codes and termination by signal each return a `Hook`-class error. -/
def Hook.run (exec : HookExec) (h : Hook) (filePath : Bytes) : Except Error Unit :=
  match exec h (substArgs h.args filePath) with
  | .spawnErr => .error ⟨.hook, "hook process error"⟩
  | .status (.code c) =>
    if c = 0 then .ok () else .error ⟨.hook, "exited with non-zero error code"⟩
  | .status (.signal _) => .error ⟨.hook, "killed by signal"⟩

/-- `PLACER_TEMPFILE_PREFIX` from `src/target_file.rs`. -/
def PLACER_TEMPFILE_PREFIX : Bytes := strBytes ".placer-tmp-"

/-- `target_file::TargetFile` from `src/target_file.rs`. -/
structure TargetFile where
  path : Bytes
  pack : Bytes
  uid : Nat
  gid : Nat
  mode : Nat
  beforeHooks : List Hook
  afterHooks : List Hook
deriving DecidableEq

/-- `Path::file_name` of a byte-string path: the part after the last
`'/'`. -/
def fileNameOf (p : Bytes) : Bytes := (p.reverse.takeWhile (fun b => b != 47)).reverse

/-- `self.path.with_file_name(PLACER_TEMPFILE_PREFIX ++ file_name)`:
the temp-file path computed by `TargetFile::place`. -/
def tempPathOf (p : Bytes) : Bytes :=
  (p.reverse.dropWhile (fun b => b != 47)).reverse ++ PLACER_TEMPFILE_PREFIX ++ fileNameOf p

/-- File-system and subprocess effects of a single placement, in program
order.  `removeTemp`/`writeTemp`/`chownTemp` act on the temp path,
`renameOver` moves the temp file over the target path, `runHook` records a
hook invocation with the path substituted for `%f`. -/
inductive PlaceEvent where
  | removeTemp
  | writeTemp (body : Bytes)
  | chownTemp (uid gid : Nat)
  | runHook (h : Hook) (filePath : Bytes)
  | renameOver
deriving DecidableEq

/-- The contents of the two file-system locations a placement touches: the
target path and its temp path. -/
structure FsState where
  target : Option Bytes
  temp : Option Bytes
deriving DecidableEq

/-- The `for hook in hooks` loops of `TargetFile::place`: run the hooks in
order until one fails, recording each invocation. -/
def runHooksLoop (exec : HookExec) (hooks : List Hook) (filePath : Bytes) :
    Except Error Unit × List PlaceEvent :=
  match hooks with
  | [] => (.ok (), [])
  | h :: rest =>
    match Hook.run exec h filePath with
    | .error e => (.error e, [.runHook h filePath])
    | .ok _ =>
      let tail := runHooksLoop exec rest filePath
      (tail.1, .runHook h filePath :: tail.2)

/-- `TargetFile::place` from `src/target_file.rs` (lines 105-168):
remove any stale temp file, write the body to the temp file with the
target's mode, chown it, run the before hooks (aborting and removing the
temp file on failure), rename the temp file over the target, then run the
after hooks (whose failure propagates but does not undo the rename; note
the source passes the temp path to after hooks as well).  File-system
syscalls themselves are modelled as succeeding: their failure exits before
any subsequent step with an `Io` error and touches no hook. -/
def TargetFile.place (exec : HookExec) (t : TargetFile) (body : Bytes) (fs : FsState) :
    Except Error Unit × FsState × List PlaceEvent :=
  let tempPath := tempPathOf t.path
  let ev0 : List PlaceEvent := [.removeTemp, .writeTemp body, .chownTemp t.uid t.gid]
  match runHooksLoop exec t.beforeHooks tempPath with
  | (.error e, evs) => (.error e, ⟨fs.target, none⟩, ev0 ++ evs ++ [.removeTemp])
  | (.ok _, evs) =>
    let fs3 : FsState := ⟨some body, none⟩
    let afterRun := runHooksLoop exec t.afterHooks tempPath
    (afterRun.1, fs3, ev0 ++ evs ++ [.renameOver] ++ afterRun.2)

/-- `digest::Digest::for_bytes` from `src/digest.rs`; SHA-256 itself is a
parameter. -/
def digestForBytes (sha256 : Bytes → Bytes) (input : Bytes) : Bytes := sha256 input

/-- `place_file_if_updated` from `src/main.rs` (lines 229-278): if the
target exists (`File::open` succeeds), reading it succeeds
(`readFails = false`) and the SHA-256 digests of current content and body
agree, do nothing; otherwise delegate to `TargetFile::place` (read errors
are logged and fall through to placement, placement errors are logged). -/
def placeFileIfUpdated (sha256 : Bytes → Bytes) (exec : HookExec) (readFails : Bool)
    (t : TargetFile) (body : Bytes) (fs : FsState) : FsState × List PlaceEvent :=
  match fs.target with
  | some data =>
    if readFails then
      let r := t.place exec body fs
      (r.2.1, r.2.2)
    else if digestForBytes sha256 data = digestForBytes sha256 body then (fs, [])
    else
      let r := t.place exec body fs
      (r.2.1, r.2.2)
  | none =>
    let r := t.place exec body fs
    (r.2.1, r.2.2)

/-- `process_pack` from `src/main.rs` (lines 199-226), as the list of
delegations to `place_file_if_updated` it makes: for each file of the
delivered pack, look its path up in the target table; a missing entry is
only warned about, an entry whose configured pack differs from the
delivered pack's label is only debug-logged. -/
def routeFile (targets : List (Bytes × TargetFile)) (packName : Bytes)
    (file : PlacerPack.PackFile) : Option (TargetFile × Bytes) :=
  match mapGet targets file.filename with
  | some target => if target.pack = packName then some (target, file.body) else none
  | none => none

/-- The placements performed by `process_pack` for a delivered pack named
`packName` containing `files`. -/
def processPack (packName : Bytes) (files : List PlacerPack.PackFile)
    (targets : List (Bytes × TargetFile)) : List (TargetFile × Bytes) :=
  files.filterMap (routeFile targets packName)

end Placer

/-!
## Specification layer for the base32 / checksum proofs

MSB-first bit strings describe what the accumulator-based converter and
the polymod fold compute.
-/

namespace Bech32k

/-- MSB-first bits of `n`, `w` bits wide. -/
def natBits : Nat → Nat → List Bool
  | 0, _ => []
  | w + 1, n => n.testBit w :: natBits w n

/-- Value of an MSB-first bit string. -/
def bitsVal (bs : List Bool) : Nat := bs.foldl (fun a b => 2 * a + b.toNat) 0

/-- Greedy split of a bit string into `dst`-bit segments (structural on a
fuel that `bs.length` always covers); returns the segments and the
remainder of fewer than `dst` bits. -/
def chunkSegsAux (dst : Nat) : Nat → List Bool → List (List Bool) × List Bool
  | 0, bs => ([], bs)
  | fuel + 1, bs =>
    if 0 < dst ∧ dst ≤ bs.length then
      let rest := chunkSegsAux dst fuel (bs.drop dst)
      (bs.take dst :: rest.1, rest.2)
    else ([], bs)

/-- Greedy split of a bit string into `dst`-bit segments. -/
def chunkSegs (dst : Nat) (bs : List Bool) : List (List Bool) × List Bool :=
  chunkSegsAux dst bs.length bs

/-- What `Base32Converter::Encode.convert` computes on byte input: the
5-bit segments of the concatenated big-endian bit string, the final
partial segment zero-padded. -/
def base32Spec (data : Bytes) : List Nat :=
  (chunkSegs 5 (data.flatMap (natBits 8))).1.map bitsVal ++
    (if (chunkSegs 5 (data.flatMap (natBits 8))).2.length > 0 then
      [bitsVal ((chunkSegs 5 (data.flatMap (natBits 8))).2 ++
        List.replicate (5 - (chunkSegs 5 (data.flatMap (natBits 8))).2.length) false)]
    else [])

/-- XOR-packing of 5-bit symbols (how the checksum symbols reassemble into
the 30-bit polymod residue). -/
def packVal : List Nat → Nat
  | [] => 0
  | c :: cs => (c <<< (5 * cs.length)) ^^^ packVal cs

/-- The top `5*k` bits of `n` as `k` 5-bit symbols, most significant
first. -/
def topDigits : Nat → Nat → List Nat
  | 0, _ => []
  | k + 1, n => ((n >>> (5 * k)) &&& 31) :: topDigits k n

end Bech32k

namespace Bech32k

theorem bitsVal_go (bs : List Bool) : ∀ a : Nat,
    bs.foldl (fun a b => 2 * a + b.toNat) a = a * 2 ^ bs.length + bitsVal bs := by
  induction bs with
  | nil => intro a; simp [bitsVal]
  | cons b rest ih =>
    intro a
    show rest.foldl _ (2 * a + b.toNat) = _
    rw [ih (2 * a + b.toNat)]
    show _ = a * 2 ^ (rest.length + 1) + bitsVal (b :: rest)
    have : bitsVal (b :: rest) = rest.foldl (fun a b => 2 * a + b.toNat) (2 * 0 + b.toNat) := rfl
    rw [this, ih (2 * 0 + b.toNat)]
    ring

theorem bitsVal_cons (b : Bool) (bs : List Bool) :
    bitsVal (b :: bs) = b.toNat * 2 ^ bs.length + bitsVal bs := by
  show bs.foldl _ (2 * 0 + b.toNat) = _
  rw [bitsVal_go]
  ring_nf

theorem bitsVal_append (xs ys : List Bool) :
    bitsVal (xs ++ ys) = bitsVal xs * 2 ^ ys.length + bitsVal ys := by
  show (xs ++ ys).foldl _ 0 = _
  rw [List.foldl_append, bitsVal_go]
  rfl

theorem bitsVal_lt (bs : List Bool) : bitsVal bs < 2 ^ bs.length := by
  induction bs with
  | nil => simp [bitsVal]
  | cons b rest ih =>
    rw [bitsVal_cons]
    have hb : b.toNat ≤ 1 := Bool.toNat_le b
    have : 2 ^ (b :: rest).length = 2 ^ rest.length + 2 ^ rest.length := by
      simp [List.length_cons, Nat.pow_succ]; ring
    rw [this]
    have := Nat.pos_pow_of_pos rest.length (by norm_num : 0 < 2)
    nlinarith

theorem bitsVal_replicate_false (n : Nat) : bitsVal (List.replicate n false) = 0 := by
  induction n with
  | zero => rfl
  | succ k ih => rw [List.replicate_succ, bitsVal_cons, ih]; simp

theorem natBits_length (w n : Nat) : (natBits w n).length = w := by
  induction w generalizing n with
  | zero => rfl
  | succ k ih => simp [natBits, ih]

theorem bitsVal_natBits_mod (w n : Nat) : bitsVal (natBits w n) = n % 2 ^ w := by
  induction w with
  | zero => simp [natBits, bitsVal, Nat.mod_one]
  | succ k ih =>
    rw [natBits, bitsVal_cons, ih, natBits_length]
    have h1 : n % 2 ^ (k + 1) = n % 2 ^ k + 2 ^ k * (n / 2 ^ k % 2) := by
      rw [pow_succ]
      exact Nat.mod_mul
    have h2 : (n.testBit k).toNat = n / 2 ^ k % 2 := by
      rw [Nat.testBit_to_div_mod]
      rcases Nat.mod_two_eq_zero_or_one (n / 2 ^ k) with h | h <;> simp [h]
    rw [h2, h1]
    ring

theorem bitsVal_natBits (w n : Nat) (h : n < 2 ^ w) : bitsVal (natBits w n) = n := by
  rw [bitsVal_natBits_mod, Nat.mod_eq_of_lt h]

theorem natBits_congr (w : Nat) {a b : Nat} (h : a % 2 ^ w = b % 2 ^ w) :
    natBits w a = natBits w b := by
  induction w with
  | zero => rfl
  | succ k ih =>
    have htb : a.testBit k = b.testBit k := by
      have ha := Nat.testBit_mod_two_pow a (k + 1) k
      have hb := Nat.testBit_mod_two_pow b (k + 1) k
      simp only [Nat.lt_succ_self, decide_eq_true_eq, decide_True, Bool.true_and] at ha hb
      rw [← ha, ← hb, h]
    have hmod : a % 2 ^ k = b % 2 ^ k := by
      have hd : (2 : Nat) ^ k ∣ 2 ^ (k + 1) := pow_dvd_pow 2 (Nat.le_succ k)
      rw [← Nat.mod_mod_of_dvd a hd, ← Nat.mod_mod_of_dvd b hd, h]
    rw [natBits, natBits, htb, ih hmod]

theorem natBits_bitsVal (bs : List Bool) : natBits bs.length (bitsVal bs) = bs := by
  induction bs with
  | nil => rfl
  | cons b rest ih =>
    rw [List.length_cons, natBits, bitsVal_cons]
    have h1 : (b.toNat * 2 ^ rest.length + bitsVal rest).testBit rest.length = b := by
      rw [Nat.mul_comm b.toNat, Nat.testBit_mul_two_pow_add_eq,
          Nat.testBit_lt_two_pow (bitsVal_lt rest)]
      cases b <;> simp
    have h2 : natBits rest.length (b.toNat * 2 ^ rest.length + bitsVal rest)
        = natBits rest.length (bitsVal rest) := by
      apply natBits_congr
      rw [Nat.mul_comm, Nat.mul_add_mod]
    rw [h1, h2, ih]

end Bech32k

namespace Bech32k

theorem chunkSegsAux_fuel (dst : Nat) : ∀ fuel bs, bs.length ≤ fuel →
    chunkSegsAux dst fuel bs = chunkSegs dst bs := by
  intro fuel
  induction fuel using Nat.strong_induction_on with
  | _ fuel ih =>
    intro bs hlen
    by_cases hc : 0 < dst ∧ dst ≤ bs.length
    · have hbs : 1 ≤ bs.length := le_trans hc.1 hc.2
      obtain ⟨f, rfl⟩ : ∃ f, fuel = f + 1 := ⟨fuel - 1, by omega⟩
      obtain ⟨m, hm⟩ : ∃ m, bs.length = m + 1 := ⟨bs.length - 1, by omega⟩
      have hdl : (bs.drop dst).length = bs.length - dst := List.length_drop dst bs
      have h1 : chunkSegsAux dst f (bs.drop dst) = chunkSegs dst (bs.drop dst) :=
        ih f (by omega) _ (by omega)
      have h2 : chunkSegsAux dst m (bs.drop dst) = chunkSegs dst (bs.drop dst) :=
        ih m (by omega) _ (by omega)
      rw [chunkSegsAux, if_pos hc, chunkSegs, hm, chunkSegsAux, if_pos (hm ▸ hc)]
      rw [h1, h2]
    · cases fuel with
      | zero =>
        have h0 : bs.length = 0 := by omega
        rw [chunkSegsAux, chunkSegs, h0, chunkSegsAux]
      | succ f =>
        rw [chunkSegsAux, if_neg hc, chunkSegs]
        cases hbs : bs.length with
        | zero => rw [chunkSegsAux]
        | succ m => rw [chunkSegsAux, if_neg (hbs ▸ hc)]

theorem chunkSegs_small {dst : Nat} {bs : List Bool} (h : bs.length < dst) :
    chunkSegs dst bs = ([], bs) := by
  rw [chunkSegs]
  cases hbs : bs.length with
  | zero => rw [chunkSegsAux]
  | succ m => rw [chunkSegsAux, if_neg (by omega)]

theorem chunkSegs_step {dst : Nat} {bs : List Bool} (hd : 0 < dst) (h : dst ≤ bs.length) :
    chunkSegs dst bs =
      (bs.take dst :: (chunkSegs dst (bs.drop dst)).1, (chunkSegs dst (bs.drop dst)).2) := by
  have hc : 0 < dst ∧ dst ≤ bs.length := ⟨hd, h⟩
  obtain ⟨m, hm⟩ : ∃ m, bs.length = m + 1 := ⟨bs.length - 1, by omega⟩
  rw [chunkSegs, hm, chunkSegsAux, if_pos (hm ▸ hc)]
  rw [chunkSegsAux_fuel dst m _ (by rw [List.length_drop]; omega)]

theorem chunkSegs_seg_length {dst : Nat} (hd : 0 < dst) :
    ∀ n (bs : List Bool), bs.length ≤ n → ∀ c ∈ (chunkSegs dst bs).1, c.length = dst := by
  intro n
  induction n using Nat.strong_induction_on with
  | _ n ih =>
    intro bs hn c hc
    by_cases h : dst ≤ bs.length
    · rw [chunkSegs_step hd h] at hc
      rcases List.mem_cons.mp hc with rfl | hmem
      · exact List.length_take_of_le h
      · have hdl : (bs.drop dst).length = bs.length - dst := List.length_drop dst bs
        exact ih (bs.drop dst).length (by omega) _ le_rfl c hmem
    · rw [chunkSegs_small (by omega)] at hc
      simp at hc

theorem chunkSegs_flatten {dst : Nat} (hd : 0 < dst) :
    ∀ n (bs : List Bool), bs.length ≤ n →
      (chunkSegs dst bs).1.flatten ++ (chunkSegs dst bs).2 = bs := by
  intro n
  induction n using Nat.strong_induction_on with
  | _ n ih =>
    intro bs hn
    by_cases h : dst ≤ bs.length
    · rw [chunkSegs_step hd h]
      have hdl : (bs.drop dst).length = bs.length - dst := List.length_drop dst bs
      have := ih (bs.drop dst).length (by omega) (bs.drop dst) le_rfl
      simp only [List.flatten_cons, List.append_assoc, this]
      exact List.take_append_drop dst bs
    · rw [chunkSegs_small (by omega)]
      simp

theorem chunkSegs_rem_length {dst : Nat} (hd : 0 < dst) :
    ∀ n (bs : List Bool), bs.length ≤ n → (chunkSegs dst bs).2.length = bs.length % dst := by
  intro n
  induction n using Nat.strong_induction_on with
  | _ n ih =>
    intro bs hn
    by_cases h : dst ≤ bs.length
    · rw [chunkSegs_step hd h]
      have hdl : (bs.drop dst).length = bs.length - dst := List.length_drop dst bs
      have := ih (bs.drop dst).length (by omega) (bs.drop dst) le_rfl
      rw [this, hdl, Nat.mod_eq_sub_mod h]
    · rw [chunkSegs_small (by omega), Nat.mod_eq_of_lt (by omega)]

theorem chunkSegs_count {dst : Nat} (hd : 0 < dst) :
    ∀ n (bs : List Bool), bs.length ≤ n → (chunkSegs dst bs).1.length = bs.length / dst := by
  intro n
  induction n using Nat.strong_induction_on with
  | _ n ih =>
    intro bs hn
    by_cases h : dst ≤ bs.length
    · rw [chunkSegs_step hd h]
      have hdl : (bs.drop dst).length = bs.length - dst := List.length_drop dst bs
      have := ih (bs.drop dst).length (by omega) (bs.drop dst) le_rfl
      simp only [List.length_cons, this, hdl]
      rw [Nat.div_eq_sub_div hd h]
    · rw [chunkSegs_small (by omega)]
      rw [Nat.div_eq_of_lt (by omega)]
      rfl

theorem chunkSegs_exact {dst : Nat} (hd : 0 < dst) (l : List (List Bool)) (rem : List Bool)
    (hl : ∀ c ∈ l, c.length = dst) (hr : rem.length < dst) :
    chunkSegs dst (l.flatten ++ rem) = (l, rem) := by
  induction l with
  | nil => simpa using chunkSegs_small hr
  | cons c l' ih =>
    have hcl : c.length = dst := hl c (List.mem_cons_self c l')
    have hlen : dst ≤ (List.flatten (c :: l') ++ rem).length := by
      simp [List.flatten_cons, hcl]
    rw [chunkSegs_step hd hlen]
    have htake : (List.flatten (c :: l') ++ rem).take dst = c := by
      rw [List.flatten_cons, List.append_assoc]
      exact List.take_left' hcl
    have hdrop : (List.flatten (c :: l') ++ rem).drop dst = l'.flatten ++ rem := by
      rw [List.flatten_cons, List.append_assoc]
      exact List.drop_left' hcl
    rw [htake, hdrop, ih (fun x hx => hl x (List.mem_cons_of_mem c hx))]

theorem chunkSegs_append {dst : Nat} (hd : 0 < dst) :
    ∀ n (A B : List Bool), A.length ≤ n →
      chunkSegs dst (A ++ B) =
        ((chunkSegs dst A).1 ++ (chunkSegs dst ((chunkSegs dst A).2 ++ B)).1,
         (chunkSegs dst ((chunkSegs dst A).2 ++ B)).2) := by
  intro n
  induction n using Nat.strong_induction_on with
  | _ n ih =>
    intro A B hn
    by_cases h : dst ≤ A.length
    · have hAB : dst ≤ (A ++ B).length := by simp; omega
      rw [chunkSegs_step hd hAB, chunkSegs_step hd h]
      have htake : (A ++ B).take dst = A.take dst := List.take_append_of_le_length h
      have hdrop : (A ++ B).drop dst = A.drop dst ++ B := List.drop_append_of_le_length h
      have hdl : (A.drop dst).length = A.length - dst := List.length_drop dst A
      have := ih (A.drop dst).length (by omega) (A.drop dst) B le_rfl
      rw [htake, hdrop, this]
      simp
    · rw [chunkSegs_small (show A.length < dst by omega)]
      simp

theorem and_mask_eq_mod (x d : Nat) : x &&& (2 ^ d - 1) = x % 2 ^ d :=
  Nat.and_pow_two_sub_one_eq_mod x d

theorem div_pow_mod_pow (a k d : Nat) : a / 2 ^ k % 2 ^ d = a % 2 ^ (k + d) / 2 ^ k := by
  rw [pow_add]
  exact (Nat.mod_mul_right_div_self a (2 ^ k) (2 ^ d)).symm

theorem shiftRight_xor_distrib (a b n : Nat) : (a ^^^ b) >>> n = a >>> n ^^^ b >>> n := by
  apply Nat.eq_of_testBit_eq
  intro i
  simp [Nat.testBit_shiftRight, Nat.testBit_xor]

theorem shiftLeft_xor_distrib (a b n : Nat) : (a ^^^ b) <<< n = a <<< n ^^^ b <<< n := by
  apply Nat.eq_of_testBit_eq
  intro i
  simp only [Nat.testBit_shiftLeft, Nat.testBit_xor]
  cases Nat.decLe n i with
  | isTrue h => simp [h]
  | isFalse h => simp [h]

theorem testBit_eq_false_of_mod_eq_zero {a : Nat} (k : Nat) (ha : a % 2 ^ k = 0)
    {j : Nat} (hj : j < k) : a.testBit j = false := by
  have h := Nat.testBit_mod_two_pow a k j
  rw [ha] at h
  simp only [Nat.zero_testBit] at h
  rw [eq_comm] at h
  simpa [hj] using h

theorem xor_disj_eq_add {a b : Nat} (k : Nat) (ha : a % 2 ^ k = 0) (hb : b < 2 ^ k) :
    a ^^^ b = a + b := by
  have hor : a ^^^ b = a ||| b := by
    apply Nat.eq_of_testBit_eq
    intro i
    simp only [Nat.testBit_xor, Nat.testBit_or]
    by_cases hik : i < k
    · rw [testBit_eq_false_of_mod_eq_zero k ha hik]
      cases b.testBit i <;> rfl
    · have : b.testBit i = false :=
        Nat.testBit_lt_two_pow (lt_of_lt_of_le hb (Nat.pow_le_pow_right (by norm_num) (by omega)))
      rw [this]
      cases a.testBit i <;> rfl
  have hdvd : 2 ^ k ∣ a := Nat.dvd_of_mod_eq_zero ha
  obtain ⟨q, rfl⟩ := hdvd
  rw [hor, ← Nat.mul_add_lt_is_or hb q]

theorem or_low_eq_add {a b k : Nat} (ha : a % 2 ^ k = 0) (hb : b < 2 ^ k) :
    a ||| b = a + b := by
  rw [← xor_disj_eq_add k ha hb]
  apply Nat.eq_of_testBit_eq
  intro i
  simp only [Nat.testBit_xor, Nat.testBit_or]
  by_cases hik : i < k
  · rw [testBit_eq_false_of_mod_eq_zero k ha hik]
    cases b.testBit i <;> rfl
  · have : b.testBit i = false :=
      Nat.testBit_lt_two_pow (lt_of_lt_of_le hb (Nat.pow_le_pow_right (by norm_num) (by omega)))
    rw [this]
    cases a.testBit i <;> rfl

theorem foldl_xor_pull (l : List Nat) (g : Nat → Nat) (p : Nat → Prop) [DecidablePred p] :
    ∀ x d : Nat, l.foldl (fun acc i => if p i then acc ^^^ g i else acc) (x ^^^ d) =
      l.foldl (fun acc i => if p i then acc ^^^ g i else acc) x ^^^ d := by
  induction l with
  | nil => intro x d; rfl
  | cons i rest ih =>
    intro x d
    simp only [List.foldl_cons]
    by_cases hp : p i
    · simp only [hp, if_true]
      rw [show x ^^^ d ^^^ g i = (x ^^^ g i) ^^^ d by
        rw [Nat.xor_assoc, Nat.xor_comm d, Nat.xor_assoc]]
      exact ih (x ^^^ g i) d
    · simp only [hp, if_false]
      exact ih x d

theorem applyCoeffs_xor (b x d : Nat) : applyCoeffs b (x ^^^ d) = applyCoeffs b x ^^^ d := by
  unfold applyCoeffs
  exact foldl_xor_pull (List.range 5) (fun i => GENERATOR_COEFFICIENTS.getD i 0)
    (fun i => (b >>> i) &&& 1 = 1) x d

theorem gen_coeff_lt (i : Nat) : GENERATOR_COEFFICIENTS.getD i 0 < 2 ^ 30 := by
  match i with
  | 0 => decide
  | 1 => decide
  | 2 => decide
  | 3 => decide
  | 4 => decide
  | n + 5 =>
    rw [List.getD_eq_default]
    · norm_num
    · simp [GENERATOR_COEFFICIENTS]

theorem applyCoeffs_lt (b : Nat) {x : Nat} (hx : x < 2 ^ 30) : applyCoeffs b x < 2 ^ 30 := by
  unfold applyCoeffs
  have key : ∀ (l : List Nat) (y : Nat), y < 2 ^ 30 →
      l.foldl (fun acc i => if (b >>> i) &&& 1 = 1 then acc ^^^ GENERATOR_COEFFICIENTS.getD i 0
        else acc) y < 2 ^ 30 := by
    intro l
    induction l with
    | nil => intro y hy; exact hy
    | cons i rest ih =>
      intro y hy
      simp only [List.foldl_cons]
      by_cases hp : (b >>> i) &&& 1 = 1
      · simp only [hp, if_true]
        exact ih _ (Nat.xor_lt_two_pow hy (gen_coeff_lt i))
      · simp only [hp, if_false]
        exact ih _ hy
  exact key (List.range 5) x hx

theorem polymodStep_lt {r v : Nat} (hv : v < 2 ^ 30) (_hr : r < 2 ^ 30) :
    polymodStep r v < 2 ^ 30 := by
  unfold polymodStep
  apply applyCoeffs_lt
  apply Nat.xor_lt_two_pow _ hv
  have h1 : r &&& 0x1ffffff < 2 ^ 25 := by
    have : (0x1ffffff : Nat) = 2 ^ 25 - 1 := by norm_num
    rw [this, and_mask_eq_mod]
    exact Nat.mod_lt _ (by norm_num)
  calc (r &&& 0x1ffffff) <<< 5 = (r &&& 0x1ffffff) * 2 ^ 5 := Nat.shiftLeft_eq _ 5
  _ < 2 ^ 25 * 2 ^ 5 := by
      exact Nat.mul_lt_mul_of_lt_of_le h1 le_rfl (by norm_num)
  _ = 2 ^ 30 := by norm_num

theorem polymod_lt {values : List Nat} (hv : ∀ v ∈ values, v < 2 ^ 30) :
    polymod values < 2 ^ 30 := by
  unfold polymod
  have key : ∀ (l : List Nat) (r : Nat), (∀ v ∈ l, v < 2 ^ 30) → r < 2 ^ 30 →
      l.foldl polymodStep r < 2 ^ 30 := by
    intro l
    induction l with
    | nil => intro r _ hr; exact hr
    | cons v rest ih =>
      intro r hl hr
      simp only [List.foldl_cons]
      exact ih _ (fun x hx => hl x (List.mem_cons_of_mem v hx))
        (polymodStep_lt (hl v (List.mem_cons_self v rest)) hr)
  exact key values 1 hv (by norm_num)

theorem polymodStep_xor (r v : Nat) {d : Nat} (hd : d < 2 ^ 25) :
    polymodStep (r ^^^ d) v = polymodStep r v ^^^ (d <<< 5) := by
  unfold polymodStep
  have htop : (r ^^^ d) >>> 25 = r >>> 25 := by
    rw [shiftRight_xor_distrib]
    have : d >>> 25 = 0 := by
      rw [Nat.shiftRight_eq_div_pow]
      exact Nat.div_eq_of_lt hd
    rw [this, Nat.xor_zero]
  have hmask : (r ^^^ d) &&& 0x1ffffff = (r &&& 0x1ffffff) ^^^ d := by
    rw [Nat.and_xor_distrib_right]
    have : d &&& 0x1ffffff = d := by
      have h25 : (0x1ffffff : Nat) = 2 ^ 25 - 1 := by norm_num
      rw [h25, and_mask_eq_mod, Nat.mod_eq_of_lt hd]
    rw [this]
  rw [htop, hmask, shiftLeft_xor_distrib]
  rw [show (r &&& 0x1ffffff) <<< 5 ^^^ d <<< 5 ^^^ v
      = ((r &&& 0x1ffffff) <<< 5 ^^^ v) ^^^ d <<< 5 by
    rw [Nat.xor_assoc, Nat.xor_comm (d <<< 5), Nat.xor_assoc]]
  exact applyCoeffs_xor _ _ _

theorem polymodStep_zero_xor (r v : Nat) : polymodStep r v = polymodStep r 0 ^^^ v := by
  unfold polymodStep
  rw [show ((r &&& 0x1ffffff) <<< 5) ^^^ v = (((r &&& 0x1ffffff) <<< 5) ^^^ 0) ^^^ v by
    rw [Nat.xor_zero]]
  exact applyCoeffs_xor _ _ _

theorem foldl_polymodStep_xor : ∀ (cs : List Nat) (r d : Nat),
    d < 2 ^ (30 - 5 * cs.length) → 5 * cs.length ≤ 30 →
    List.foldl polymodStep (r ^^^ d) cs = List.foldl polymodStep r cs ^^^ (d <<< (5 * cs.length)) := by
  intro cs
  induction cs with
  | nil => intro r d _ _; simp
  | cons c rest ih =>
    intro r d hd hlen
    simp only [List.length_cons] at hd hlen
    have hd25 : d < 2 ^ 25 := by
      refine lt_of_lt_of_le hd (Nat.pow_le_pow_right (by norm_num) ?_)
      omega
    simp only [List.foldl_cons]
    rw [polymodStep_xor r c hd25]
    have hd5 : d <<< 5 < 2 ^ (30 - 5 * rest.length) := by
      rw [Nat.shiftLeft_eq]
      have : d * 2 ^ 5 < 2 ^ (30 - 5 * (rest.length + 1)) * 2 ^ 5 :=
        Nat.mul_lt_mul_of_lt_of_le hd le_rfl (by norm_num)
      refine lt_of_lt_of_le this ?_
      rw [← pow_add]
      exact Nat.pow_le_pow_right (by norm_num) (by omega)
    rw [ih (polymodStep r c) (d <<< 5) hd5 (by omega)]
    rw [Nat.shiftLeft_shiftLeft]
    have harith : 5 + 5 * rest.length = 5 * (rest.length + 1) := by ring
    rw [harith, List.length_cons]

theorem packVal_lt : ∀ (cs : List Nat), (∀ c ∈ cs, c < 32) → packVal cs < 2 ^ (5 * cs.length) := by
  intro cs
  induction cs with
  | nil => intro _; simp [packVal]
  | cons c rest ih =>
    intro h
    simp only [packVal, List.length_cons]
    apply Nat.xor_lt_two_pow
    · rw [Nat.shiftLeft_eq]
      have hc : c < 2 ^ 5 := h c (List.mem_cons_self c rest)
      calc c * 2 ^ (5 * rest.length) < 2 ^ 5 * 2 ^ (5 * rest.length) :=
        Nat.mul_lt_mul_of_lt_of_le hc le_rfl (Nat.pos_pow_of_pos _ (by norm_num))
      _ = 2 ^ (5 * (rest.length + 1)) := by rw [← pow_add]; congr 1; ring
    · refine lt_of_lt_of_le (ih (fun x hx => h x (List.mem_cons_of_mem c hx))) ?_
      exact Nat.pow_le_pow_right (by norm_num) (by omega)

theorem foldl_polymodStep_pack : ∀ (cs : List Nat), (∀ c ∈ cs, c < 32) → cs.length ≤ 6 →
    ∀ r, List.foldl polymodStep r cs =
      List.foldl polymodStep r (List.replicate cs.length 0) ^^^ packVal cs := by
  intro cs
  induction cs with
  | nil => intro _ _ r; simp [packVal]
  | cons c rest ih =>
    intro h hlen r
    simp only [List.length_cons, List.replicate_succ, List.foldl_cons]
    rw [show polymodStep r c = polymodStep r 0 ^^^ c from polymodStep_zero_xor r c]
    have hc32 : c < 2 ^ (30 - 5 * rest.length) := by
      refine lt_of_lt_of_le (h c (List.mem_cons_self c rest)) ?_
      have : (32 : Nat) = 2 ^ 5 := by norm_num
      rw [this]
      apply Nat.pow_le_pow_right (by norm_num)
      simp only [List.length_cons] at hlen
      omega
    rw [foldl_polymodStep_xor rest (polymodStep r 0) c hc32
      (by simp only [List.length_cons] at hlen; omega)]
    rw [ih (fun x hx => h x (List.mem_cons_of_mem c hx))
      (by simp only [List.length_cons] at hlen; omega) (polymodStep r 0)]
    rw [packVal, Nat.xor_assoc, Nat.xor_comm (packVal rest)]

theorem topDigits_length (k n : Nat) : (topDigits k n).length = k := by
  induction k generalizing n with
  | zero => rfl
  | succ m ih => simp [topDigits, ih]

theorem topDigits_lt (k n : Nat) : ∀ c ∈ topDigits k n, c < 32 := by
  induction k generalizing n with
  | zero => intro c hc; simp [topDigits] at hc
  | succ m ih =>
    intro c hc
    rcases List.mem_cons.mp hc with rfl | hmem
    · have h5 : (0x1f : Nat) = 2 ^ 5 - 1 := by norm_num
      rw [show (31 : Nat) = 2 ^ 5 - 1 by norm_num, and_mask_eq_mod]
      exact Nat.mod_lt _ (by norm_num)
    · exact ih n c hmem

theorem shiftRight_and_31 (n j : Nat) : (n >>> j) &&& 31 = n / 2 ^ j % 2 ^ 5 := by
  rw [show (31 : Nat) = 2 ^ 5 - 1 by norm_num, and_mask_eq_mod, Nat.shiftRight_eq_div_pow]

theorem topDigits_congr (k : Nat) {a b : Nat} (h : a % 2 ^ (5 * k) = b % 2 ^ (5 * k)) :
    topDigits k a = topDigits k b := by
  induction k with
  | zero => rfl
  | succ m ih =>
    have hhead : (a >>> (5 * m)) &&& 31 = (b >>> (5 * m)) &&& 31 := by
      rw [shiftRight_and_31, shiftRight_and_31, div_pow_mod_pow, div_pow_mod_pow]
      have : 5 * m + 5 = 5 * (m + 1) := by ring
      rw [this, h]
    have htail : a % 2 ^ (5 * m) = b % 2 ^ (5 * m) := by
      have hd : (2 : Nat) ^ (5 * m) ∣ 2 ^ (5 * (m + 1)) :=
        pow_dvd_pow 2 (by omega)
      rw [← Nat.mod_mod_of_dvd a hd, ← Nat.mod_mod_of_dvd b hd, h]
    rw [topDigits, topDigits, hhead, ih htail]

theorem packVal_topDigits : ∀ (k n : Nat), n < 2 ^ (5 * k) → packVal (topDigits k n) = n := by
  intro k
  induction k with
  | zero => intro n hn; interval_cases n; rfl
  | succ m ih =>
    intro n hn
    have hlen : (topDigits m n).length = m := topDigits_length m n
    have hcongr : topDigits m n = topDigits m (n % 2 ^ (5 * m)) :=
      topDigits_congr m (by rw [Nat.mod_mod_of_dvd _ dvd_rfl])
    have hmod : packVal (topDigits m n) = n % 2 ^ (5 * m) := by
      rw [hcongr]
      exact ih _ (Nat.mod_lt _ (Nat.pos_pow_of_pos _ (by norm_num)))
    show packVal (((n >>> (5 * m)) &&& 31) :: topDigits m n) = n
    rw [packVal, hlen, hmod]
    have hdigit : (n >>> (5 * m)) &&& 31 = n / 2 ^ (5 * m) := by
      rw [shiftRight_and_31]
      apply Nat.mod_eq_of_lt
      rw [Nat.div_lt_iff_lt_mul (Nat.pos_pow_of_pos _ (by norm_num))]
      rw [← pow_add]
      refine lt_of_lt_of_le hn (Nat.pow_le_pow_right (by norm_num) (by omega))
    rw [hdigit]
    have hx := @xor_disj_eq_add ((n / 2 ^ (5 * m)) <<< (5 * m)) (n % 2 ^ (5 * m))
      (5 * m) (by rw [Nat.shiftLeft_eq]; exact Nat.mul_mod_left _ _)
      (Nat.mod_lt _ (Nat.pos_pow_of_pos _ (by norm_num)))
    rw [hx, Nat.shiftLeft_eq, Nat.mul_comm]
    exact Nat.div_add_mod n (2 ^ (5 * m))

theorem checksumNew_eq_topDigits (pfx data : List Nat) :
    checksumNew pfx data =
      topDigits 6 (polymod (expandPrefix pfx ++ data ++ List.replicate 6 0) ^^^ 1) := by
  rfl

theorem checksumNew_lt (pfx data : List Nat) : ∀ c ∈ checksumNew pfx data, c < 32 := by
  rw [checksumNew_eq_topDigits]
  exact topDigits_lt 6 _

theorem checksumNew_length (pfx data : List Nat) : (checksumNew pfx data).length = 6 := by
  rw [checksumNew_eq_topDigits]
  exact topDigits_length 6 _

theorem expandPrefix_lt {pfx : Bytes} (hp : ∀ b ∈ pfx, b < 256) :
    ∀ v ∈ expandPrefix pfx, v < 32 := by
  intro v hv
  unfold expandPrefix at hv
  rcases List.mem_append.mp hv with h1 | h2
  · rcases List.mem_append.mp h1 with hl | hm
    · obtain ⟨b, _, rfl⟩ := List.mem_map.mp hl
      rw [Nat.shiftRight_eq_div_pow]
      have := hp b (by assumption)
      omega
    · simp at hm
      omega
  · obtain ⟨b, _, rfl⟩ := List.mem_map.mp h2
    rw [show (0x1f : Nat) = 2 ^ 5 - 1 by norm_num, and_mask_eq_mod]
    exact Nat.mod_lt _ (by norm_num)

theorem checksum_roundtrip {pfx data : List Nat} (hp : ∀ b ∈ pfx, b < 256)
    (hd : ∀ v ∈ data, v < 32) :
    checksumVerify pfx (data ++ checksumNew pfx data) = true := by
  unfold checksumVerify
  set P := polymod (expandPrefix pfx ++ data ++ List.replicate 6 0) with hP
  have hPlt : P < 2 ^ 30 := by
    apply polymod_lt
    intro v hv
    rcases List.mem_append.mp hv with h1 | h2
    · rcases List.mem_append.mp h1 with hE | hD
      · exact lt_trans (expandPrefix_lt hp v hE) (by norm_num)
      · exact lt_trans (hd v hD) (by norm_num)
    · rw [List.eq_of_mem_replicate h2]; norm_num
  have hpm : P ^^^ 1 < 2 ^ 30 := Nat.xor_lt_two_pow hPlt (by norm_num)
  have hcs : checksumNew pfx data = topDigits 6 (P ^^^ 1) := by
    rw [checksumNew_eq_topDigits, hP]
  have key : polymod (expandPrefix pfx ++ (data ++ checksumNew pfx data)) = 1 := by
    unfold polymod
    rw [show expandPrefix pfx ++ (data ++ checksumNew pfx data)
        = (expandPrefix pfx ++ data) ++ checksumNew pfx data by simp [List.append_assoc]]
    rw [List.foldl_append]
    rw [foldl_polymodStep_pack (checksumNew pfx data) (checksumNew_lt pfx data)
      (le_of_eq (checksumNew_length pfx data))]
    rw [checksumNew_length]
    have hrep : List.foldl polymodStep (List.foldl polymodStep 1 (expandPrefix pfx ++ data))
        (List.replicate 6 0) = P := by
      rw [hP]
      unfold polymod
      exact (List.foldl_append polymodStep 1 (expandPrefix pfx ++ data) (List.replicate 6 0)).symm
    rw [hrep, hcs, packVal_topDigits 6 (P ^^^ 1) (by exact hpm)]
    rw [← Nat.xor_assoc, Nat.xor_self, Nat.zero_xor]
  simp [key]

theorem drainAux_spec {dst max : Nat} (hd : 0 < dst) (hmax : max = 2 ^ dst - 1) :
    ∀ fuel (pend : List Bool) (acc : Nat), pend.length ≤ fuel →
      acc % 2 ^ pend.length = bitsVal pend →
      drainAux dst max acc fuel pend.length =
        ((chunkSegs dst pend).1.map bitsVal, (chunkSegs dst pend).2.length) ∧
      acc % 2 ^ (chunkSegs dst pend).2.length = bitsVal (chunkSegs dst pend).2 := by
  intro fuel
  induction fuel using Nat.strong_induction_on with
  | _ fuel ih =>
    intro pend acc hfuel hacc
    by_cases h : dst ≤ pend.length
    · obtain ⟨f, rfl⟩ : ∃ f, fuel = f + 1 := ⟨fuel - 1, by omega⟩
      have hlen : (pend.drop dst).length = pend.length - dst := List.length_drop dst pend
      have htlen : (pend.take dst).length = dst := List.length_take_of_le h
      have hsplit : bitsVal pend
          = bitsVal (pend.take dst) * 2 ^ (pend.length - dst) + bitsVal (pend.drop dst) := by
        conv_lhs => rw [← List.take_append_drop dst pend]
        rw [bitsVal_append, hlen]
      have hdroplt : bitsVal (pend.drop dst) < 2 ^ (pend.length - dst) := by
        have := bitsVal_lt (pend.drop dst)
        rwa [hlen] at this
      have hemit : (acc >>> (pend.length - dst)) &&& max = bitsVal (pend.take dst) := by
        rw [hmax, and_mask_eq_mod, Nat.shiftRight_eq_div_pow, div_pow_mod_pow]
        rw [show pend.length - dst + dst = pend.length by omega, hacc, hsplit]
        rw [Nat.mul_comm, Nat.mul_add_div (Nat.pos_pow_of_pos _ (by norm_num)),
            Nat.div_eq_of_lt hdroplt]
        omega
      have hacc' : acc % 2 ^ (pend.drop dst).length = bitsVal (pend.drop dst) := by
        rw [hlen]
        have hdvd : (2 : Nat) ^ (pend.length - dst) ∣ 2 ^ pend.length :=
          pow_dvd_pow 2 (by omega)
        rw [← Nat.mod_mod_of_dvd acc hdvd, hacc, hsplit, Nat.mul_comm, Nat.mul_add_mod,
            Nat.mod_eq_of_lt hdroplt]
      have hrec := ih f (by omega) (pend.drop dst) acc (by omega) hacc'
      rw [hlen] at hrec
      constructor
      · show drainAux dst max acc (f + 1) pend.length = _
        rw [drainAux, if_pos ⟨hd, h⟩]
        dsimp only
        rw [show pend.length - dst = (pend.drop dst).length by rw [hlen]] at hrec ⊢
        rw [hrec.1, chunkSegs_step hd h]
        simp [hemit]
      · rw [chunkSegs_step hd h]
        rw [show pend.length - dst = (pend.drop dst).length by rw [hlen]] at hrec
        exact hrec.2
    · have hsmall : chunkSegs dst pend = ([], pend) := chunkSegs_small (by omega)
      refine ⟨?_, by rw [hsmall]; exact hacc⟩
      rw [hsmall]
      cases fuel with
      | zero =>
        have h0 : pend.length = 0 := by omega
        rw [h0, drainAux]
        simp [h0]
      | succ f =>
        rw [drainAux, if_neg (by omega)]
        simp

theorem flatBits_length (w : Nat) (data : Bytes) :
    (data.flatMap (natBits w)).length = w * data.length := by
  induction data with
  | nil => simp
  | cons v rest ih =>
    rw [List.flatMap_cons, List.length_append, natBits_length, ih, List.length_cons]
    ring

theorem convertCore_spec {src dst : Nat} (hs : 0 < src) (hd : 0 < dst) (hsd : src + dst ≤ 33) :
    ∀ (data : List Nat) (pend : List Bool) (acc : Nat),
      (∀ v ∈ data, v < 2 ^ src) → pend.length < dst →
      acc % 2 ^ pend.length = bitsVal pend →
      ∃ accF,
        convertCore src dst (2 ^ dst - 1) data acc pend.length =
          .ok ((chunkSegs dst (pend ++ data.flatMap (natBits src))).1.map bitsVal, accF,
               (chunkSegs dst (pend ++ data.flatMap (natBits src))).2.length) ∧
        accF % 2 ^ (chunkSegs dst (pend ++ data.flatMap (natBits src))).2.length =
          bitsVal (chunkSegs dst (pend ++ data.flatMap (natBits src))).2 := by
  intro data
  induction data with
  | nil =>
    intro pend acc _ hlt hacc
    refine ⟨acc, ?_, ?_⟩
    · rw [List.flatMap_nil, List.append_nil, chunkSegs_small hlt]
      simp [convertCore]
    · rw [List.flatMap_nil, List.append_nil, chunkSegs_small hlt]
      exact hacc
  | cons v rest ih =>
    intro pend acc hdata hlt hacc
    have hv : v < 2 ^ src := hdata v (List.mem_cons_self v rest)
    have hvsh : ¬ v >>> src ≠ 0 := by
      rw [Nat.shiftRight_eq_div_pow]
      simp [Nat.div_eq_of_lt hv]
    have hB : pend.length + src ≤ 32 := by omega
    have hx0 : ((acc <<< src) % 2 ^ 32) % 2 ^ src = 0 := by
      have hdvd : (2 : Nat) ^ src ∣ 2 ^ 32 := pow_dvd_pow 2 (by omega)
      rw [Nat.mod_mod_of_dvd _ hdvd, Nat.shiftLeft_eq, Nat.mul_mod_left]
    have haccsum : ((acc <<< src) % 2 ^ 32) ||| v = ((acc <<< src) % 2 ^ 32) + v :=
      or_low_eq_add hx0 hv
    have hpendv : (((acc <<< src) % 2 ^ 32) ||| v) % 2 ^ (pend.length + src)
        = bitsVal (pend ++ natBits src v) := by
      have hBdvd : (2 : Nat) ^ (pend.length + src) ∣ 2 ^ 32 := pow_dvd_pow 2 hB
      have hxmod : ((acc <<< src) % 2 ^ 32) % 2 ^ (pend.length + src)
          = (acc % 2 ^ pend.length) * 2 ^ src := by
        rw [Nat.mod_mod_of_dvd _ hBdvd, Nat.shiftLeft_eq, pow_add, Nat.mul_mod_mul_right]
      have hsumlt : (acc % 2 ^ pend.length) * 2 ^ src + v < 2 ^ (pend.length + src) := by
        have h1 : acc % 2 ^ pend.length < 2 ^ pend.length :=
          Nat.mod_lt _ (Nat.pos_pow_of_pos _ (by norm_num))
        calc (acc % 2 ^ pend.length) * 2 ^ src + v
            < (acc % 2 ^ pend.length) * 2 ^ src + 2 ^ src := by omega
        _ = (acc % 2 ^ pend.length + 1) * 2 ^ src := by ring
        _ ≤ 2 ^ pend.length * 2 ^ src := Nat.mul_le_mul_right _ (by omega)
        _ = 2 ^ (pend.length + src) := by rw [← pow_add]
      have hvB : v < 2 ^ (pend.length + src) :=
        lt_of_lt_of_le hv (Nat.pow_le_pow_right (by norm_num) (by omega))
      calc (((acc <<< src) % 2 ^ 32) ||| v) % 2 ^ (pend.length + src)
          = (((acc <<< src) % 2 ^ 32) + v) % 2 ^ (pend.length + src) := by rw [haccsum]
      _ = (((acc <<< src) % 2 ^ 32) % 2 ^ (pend.length + src) + v % 2 ^ (pend.length + src))
            % 2 ^ (pend.length + src) := by rw [Nat.add_mod]
      _ = ((acc % 2 ^ pend.length) * 2 ^ src + v) % 2 ^ (pend.length + src) := by
            rw [hxmod, Nat.mod_eq_of_lt hvB]
      _ = (acc % 2 ^ pend.length) * 2 ^ src + v := Nat.mod_eq_of_lt hsumlt
      _ = bitsVal pend * 2 ^ src + v := by rw [hacc]
      _ = bitsVal (pend ++ natBits src v) := by
            rw [bitsVal_append, natBits_length, bitsVal_natBits src v hv]
    have hplen : (pend ++ natBits src v).length = pend.length + src := by
      rw [List.length_append, natBits_length]
    rw [← hplen] at hpendv
    have hdrain := drainAux_spec hd rfl (pend.length + src) (pend ++ natBits src v)
      (((acc <<< src) % 2 ^ 32) ||| v) (le_of_eq hplen) hpendv
    rw [hplen] at hdrain
    have hremlt :
        (chunkSegs dst (pend ++ natBits src v)).2.length < dst := by
      rw [chunkSegs_rem_length hd (pend ++ natBits src v).length _ le_rfl]
      exact Nat.mod_lt _ hd
    have hrec := ih (chunkSegs dst (pend ++ natBits src v)).2 (((acc <<< src) % 2 ^ 32) ||| v)
      (fun x hx => hdata x (List.mem_cons_of_mem v hx)) hremlt hdrain.2
    obtain ⟨accF, hrec1, hrec2⟩ := hrec
    have hcomp := chunkSegs_append hd (pend ++ natBits src v).length (pend ++ natBits src v)
      (rest.flatMap (natBits src)) le_rfl
    have hflat : pend ++ (v :: rest).flatMap (natBits src)
        = (pend ++ natBits src v) ++ rest.flatMap (natBits src) := by
      rw [List.flatMap_cons, List.append_assoc]
    refine ⟨accF, ?_, ?_⟩
    · rw [convertCore, if_neg hvsh]
      dsimp only
      rw [show drain dst (2 ^ dst - 1) (((acc <<< src) % 2 ^ 32) ||| v) (pend.length + src)
          = ((chunkSegs dst (pend ++ natBits src v)).1.map bitsVal,
             (chunkSegs dst (pend ++ natBits src v)).2.length) from hdrain.1]
      rw [hrec1, hflat, hcomp]
      simp
    · rw [hflat, hcomp]
      exact hrec2

theorem convert_encode_eq {data : Bytes} (h : ∀ v ∈ data, v < 256) :
    Base32Converter.encode.convert data = .ok (base32Spec data) := by
  have h256 : ∀ v ∈ data, v < 2 ^ 8 := by intro v hv; exact h v hv
  have hspec := @convertCore_spec 8 5 (by norm_num) (by norm_num) (by norm_num)
    data [] 0 h256 (by simp) (by simp [bitsVal])
  obtain ⟨accF, h1, h2⟩ := hspec
  simp only [List.nil_append] at h1 h2
  show (match convertCore 8 5 31 data 0 0 with
    | Except.error e => Except.error e
    | Except.ok (out, acc, bits) =>
        Except.ok (if bits > 0 then out ++ [(acc <<< (5 - bits)) &&& 31] else out)) = _
  rw [show (31 : Nat) = 2 ^ 5 - 1 by norm_num] at *
  simp only [List.length_nil] at h1
  rw [h1]
  dsimp only
  unfold base32Spec
  set r := (chunkSegs 5 (data.flatMap (natBits 8))).2 with hr
  have hrlt : r.length < 5 := by
    rw [hr, chunkSegs_rem_length (by norm_num) (data.flatMap (natBits 8)).length _ le_rfl]
    exact Nat.mod_lt _ (by norm_num)
  by_cases hpos : r.length > 0
  · rw [if_pos hpos]
    have hpad : (accF <<< (5 - r.length)) &&& (2 ^ 5 - 1)
        = bitsVal (r ++ List.replicate (5 - r.length) false) := by
      rw [and_mask_eq_mod, Nat.shiftLeft_eq]
      rw [show (2 : Nat) ^ 5 = 2 ^ r.length * 2 ^ (5 - r.length) by rw [← pow_add]; congr 1; omega]
      rw [Nat.mul_mod_mul_right, h2]
      rw [bitsVal_append, bitsVal_replicate_false, List.length_replicate]
      omega
    rw [hpad, if_pos hpos]
  · rw [if_neg hpos, if_neg hpos]
    simp

theorem convert_decode_eq {digits : List Nat} (h : ∀ v ∈ digits, v < 32) :
    Base32Converter.decode.convert digits =
      if 5 ≤ (chunkSegs 8 (digits.flatMap (natBits 5))).2.length ∨
         bitsVal (chunkSegs 8 (digits.flatMap (natBits 5))).2 ≠ 0 then .error .paddingInvalid
      else .ok ((chunkSegs 8 (digits.flatMap (natBits 5))).1.map bitsVal) := by
  have h32 : ∀ v ∈ digits, v < 2 ^ 5 := by intro v hv; exact h v hv
  have hspec := @convertCore_spec 5 8 (by norm_num) (by norm_num) (by norm_num)
    digits [] 0 h32 (by simp) (by simp [bitsVal])
  obtain ⟨accF, h1, h2⟩ := hspec
  simp only [List.nil_append] at h1 h2
  show (match convertCore 5 8 255 digits 0 0 with
    | Except.error e => Except.error e
    | Except.ok (out, acc, bits) =>
        if bits ≥ 5 ∨ ((acc <<< (8 - bits)) &&& 255) ≠ 0 then Except.error Error.paddingInvalid
        else Except.ok out) = _
  rw [show (255 : Nat) = 2 ^ 8 - 1 by norm_num] at *
  simp only [List.length_nil] at h1
  rw [h1]
  dsimp only
  set r := (chunkSegs 8 (digits.flatMap (natBits 5))).2 with hr
  have hrlt : r.length < 8 := by
    rw [hr, chunkSegs_rem_length (by norm_num) (digits.flatMap (natBits 5)).length _ le_rfl]
    exact Nat.mod_lt _ (by norm_num)
  have hpadval : (accF <<< (8 - r.length)) &&& (2 ^ 8 - 1) = bitsVal r * 2 ^ (8 - r.length) := by
    rw [and_mask_eq_mod, Nat.shiftLeft_eq]
    rw [show (2 : Nat) ^ 8 = 2 ^ r.length * 2 ^ (8 - r.length) by rw [← pow_add]; congr 1; omega]
    rw [Nat.mul_mod_mul_right, h2]
  have hiff : (bitsVal r * 2 ^ (8 - r.length) ≠ 0) ↔ bitsVal r ≠ 0 := by
    constructor
    · intro hne h0; exact hne (by rw [h0, Nat.zero_mul])
    · intro hne h0
      exact hne (Nat.eq_zero_of_mul_eq_zero h0 |>.resolve_right
        (Nat.pos_iff_ne_zero.mp (Nat.pos_pow_of_pos _ (by norm_num))))
  rw [hpadval]
  by_cases hc : 5 ≤ r.length ∨ bitsVal r ≠ 0
  · rw [if_pos hc, if_pos]
    rcases hc with hc1 | hc2
    · exact Or.inl hc1
    · exact Or.inr (hiff.mpr hc2)
  · rw [if_neg hc, if_neg]
    intro hcon
    rcases hcon with hc1 | hc2
    · exact hc (Or.inl hc1)
    · exact hc (Or.inr (hiff.mp hc2))

theorem base32Spec_lt (data : Bytes) : ∀ v ∈ base32Spec data, v < 32 := by
  intro v hv
  unfold base32Spec at hv
  rcases List.mem_append.mp hv with h1 | h2
  · obtain ⟨c, hc, rfl⟩ := List.mem_map.mp h1
    have := @chunkSegs_seg_length 5 (by norm_num)
      (data.flatMap (natBits 8)).length _ le_rfl c hc
    have hlt := bitsVal_lt c
    rw [this] at hlt
    exact hlt
  · by_cases hpos : (chunkSegs 5 (data.flatMap (natBits 8))).2.length > 0
    · rw [if_pos hpos] at h2
      simp only [List.mem_singleton] at h2
      subst h2
      have hrlt : (chunkSegs 5 (data.flatMap (natBits 8))).2.length < 5 := by
        rw [chunkSegs_rem_length (by norm_num) (data.flatMap (natBits 8)).length _ le_rfl]
        exact Nat.mod_lt _ (by norm_num)
      have hlen : ((chunkSegs 5 (data.flatMap (natBits 8))).2 ++
          List.replicate (5 - (chunkSegs 5 (data.flatMap (natBits 8))).2.length) false).length
          = 5 := by
        rw [List.length_append, List.length_replicate]
        omega
      have hlt := bitsVal_lt ((chunkSegs 5 (data.flatMap (natBits 8))).2 ++
        List.replicate (5 - (chunkSegs 5 (data.flatMap (natBits 8))).2.length) false)
      rw [hlen] at hlt
      exact hlt
    · rw [if_neg hpos] at h2
      simp at h2

theorem base32Spec_length (data : Bytes) :
    (base32Spec data).length = (8 * data.length + 4) / 5 := by
  unfold base32Spec
  rw [List.length_append, List.length_map]
  rw [chunkSegs_count (by norm_num) (data.flatMap (natBits 8)).length _ le_rfl,
      chunkSegs_rem_length (by norm_num) (data.flatMap (natBits 8)).length _ le_rfl,
      flatBits_length]
  by_cases hpos : 8 * data.length % 5 > 0
  · rw [if_pos hpos, List.length_singleton]
    omega
  · rw [if_neg hpos, List.length_nil]
    omega

theorem segs_flatMap_natBits (segs : List (List Bool)) (h : ∀ c ∈ segs, c.length = 5) :
    (segs.map bitsVal).flatMap (natBits 5) = segs.flatten := by
  induction segs with
  | nil => rfl
  | cons c rest ih =>
    rw [List.map_cons, List.flatMap_cons, List.flatten_cons]
    rw [show natBits 5 (bitsVal c) = c by
      rw [← h c (List.mem_cons_self c rest)]; exact natBits_bitsVal c]
    rw [ih (fun x hx => h x (List.mem_cons_of_mem c hx))]

theorem base32_roundtrip {data : Bytes} (h : ∀ v ∈ data, v < 256) :
    Base32Converter.decode.convert (base32Spec data) = .ok data := by
  rw [convert_decode_eq (base32Spec_lt data)]
  have hsegsl := @chunkSegs_seg_length 5 (by norm_num)
    (data.flatMap (natBits 8)).length _ le_rfl
  have hrlt : (chunkSegs 5 (data.flatMap (natBits 8))).2.length < 5 := by
    rw [chunkSegs_rem_length (by norm_num) (data.flatMap (natBits 8)).length _ le_rfl]
    exact Nat.mod_lt _ (by norm_num)
  have hflatten := @chunkSegs_flatten 5 (by norm_num)
    (data.flatMap (natBits 8)).length _ le_rfl
  set r := (chunkSegs 5 (data.flatMap (natBits 8))).2 with hrdef
  have hkey : (base32Spec data).flatMap (natBits 5)
      = data.flatMap (natBits 8) ++ List.replicate ((5 - r.length) % 5) false := by
    unfold base32Spec
    rw [List.flatMap_append, segs_flatMap_natBits _ hsegsl]
    by_cases hpos : r.length > 0
    · rw [← hrdef, if_pos hpos]
      have hplen : (r ++ List.replicate (5 - r.length) false).length = 5 := by
        rw [List.length_append, List.length_replicate]; omega
      rw [show List.flatMap [bitsVal (r ++ List.replicate (5 - r.length) false)] (natBits 5)
          = natBits 5 (bitsVal (r ++ List.replicate (5 - r.length) false)) by
        simp [List.flatMap_cons]]
      rw [show natBits 5 (bitsVal (r ++ List.replicate (5 - r.length) false))
          = r ++ List.replicate (5 - r.length) false by
        have hnb := natBits_bitsVal (r ++ List.replicate (5 - r.length) false)
        rw [hplen] at hnb
        exact hnb]
      rw [← List.append_assoc, hflatten]
      congr 2
      omega
    · rw [← hrdef, if_neg hpos]
      have hr0 : r = [] := List.eq_nil_of_length_eq_zero (by omega)
      have : (5 - r.length) % 5 = 0 := by rw [hr0]; rfl
      rw [this, List.flatMap_nil, List.append_nil, List.replicate_zero, List.append_nil]
      conv_rhs => rw [← hflatten, hr0, List.append_nil]
  rw [hkey]
  have hpad5 : ((5 - r.length) % 5) < 8 := lt_of_lt_of_le (Nat.mod_lt _ (by norm_num)) (by norm_num)
  have hexact := @chunkSegs_exact 8 (by norm_num) (data.map (natBits 8))
    (List.replicate ((5 - r.length) % 5) false)
    (by intro c hc; obtain ⟨b, _, rfl⟩ := List.mem_map.mp hc; exact natBits_length 8 b)
    (by rw [List.length_replicate]; exact hpad5)
  rw [show data.flatMap (natBits 8) = (data.map (natBits 8)).flatten from rfl, hexact]
  rw [if_neg (by
    simp only [List.length_replicate, bitsVal_replicate_false]
    push_neg
    refine ⟨by omega, rfl⟩)]
  congr 1
  rw [List.map_map]
  have hmapc : ∀ b ∈ data, (bitsVal ∘ natBits 8) b = b := by
    intro b hb
    show bitsVal (natBits 8 b) = b
    exact bitsVal_natBits 8 b (h b hb)
  rw [List.map_congr_left hmapc]
  simp

/-- Case normalization applied by `decode`'s loops: upper-case ASCII
letters are folded to lower case, everything else is unchanged. -/
def lowerByte1 (b : Nat) : Nat := if isUpperByte b then b + 32 else b

/-- Does the byte string contain an ASCII lower-case letter? -/
def anyLower (l : Bytes) : Bool := l.any (fun b => decide (isLowerByte b))

/-- Does the byte string contain an ASCII upper-case letter? -/
def anyUpper (l : Bytes) : Bool := l.any (fun b => decide (isUpperByte b))

theorem prefixLoop_ok {l : Bytes} (h : ∀ b ∈ l, 33 ≤ b ∧ b ≤ 126) :
    ∀ hl hu out, prefixLoop l hl hu out =
      .ok (out ++ l.map lowerByte1, hl || anyLower l, hu || anyUpper l) := by
  induction l with
  | nil => intro hl hu out; simp [prefixLoop, anyLower, anyUpper]
  | cons b rest ih =>
    intro hl hu out
    have hb := h b (List.mem_cons_self b rest)
    have hrest : ∀ x ∈ rest, 33 ≤ x ∧ x ≤ 126 := fun x hx => h x (List.mem_cons_of_mem b hx)
    rw [prefixLoop, if_pos hb]
    by_cases hub : isUpperByte b
    · rw [if_pos hub, ih hrest]
      have hlb : ¬ isLowerByte b := by
        unfold isUpperByte at hub
        unfold isLowerByte
        omega
      simp [anyLower, anyUpper, lowerByte1, hub, hlb]
    · rw [if_neg hub]
      by_cases hlb : isLowerByte b
      · rw [if_pos hlb, ih hrest]
        simp [anyLower, anyUpper, lowerByte1, hub, hlb]
      · rw [if_neg hlb, ih hrest]
        simp [anyLower, anyUpper, lowerByte1, hub, hlb]

theorem dataLoop_ok {l : Bytes} (h : ∀ b ∈ l, dataCharOk b) :
    ∀ hl hu out, dataLoop l hl hu out =
      .ok (out ++ l.map (fun b => i8AsU8 (CHARSET_INVERSE.getD (lowerByte1 b) 0)),
           hl || anyLower l, hu || anyUpper l) := by
  induction l with
  | nil => intro hl hu out; simp [dataLoop, anyLower, anyUpper]
  | cons b rest ih =>
    intro hl hu out
    have hb := h b (List.mem_cons_self b rest)
    have hrest : ∀ x ∈ rest, dataCharOk x := fun x hx => h x (List.mem_cons_of_mem b hx)
    rw [dataLoop, if_pos hb]
    by_cases hub : isUpperByte b
    · rw [if_pos hub, ih hrest]
      have hlb : ¬ isLowerByte b := by
        unfold isUpperByte at hub
        unfold isLowerByte
        omega
      simp [anyLower, anyUpper, lowerByte1, hub, hlb]
    · rw [if_neg hub]
      by_cases hlb : isLowerByte b
      · rw [if_pos hlb, ih hrest]
        simp [anyLower, anyUpper, lowerByte1, hub, hlb]
      · rw [if_neg hlb, ih hrest]
        simp [anyLower, anyUpper, lowerByte1, hub, hlb]

theorem takeWhile_sep (pfx rest : Bytes) (h : SEPARATOR ∉ pfx) :
    (pfx ++ SEPARATOR :: rest).takeWhile (fun b => b != SEPARATOR) = pfx := by
  induction pfx with
  | nil => simp [List.takeWhile_cons]
  | cons b p ih =>
    have hb : b ≠ SEPARATOR := fun hc => h (hc ▸ List.mem_cons_self b p)
    have hbne : (b != SEPARATOR) = true := by simp [hb]
    rw [List.cons_append, List.takeWhile_cons, hbne]
    rw [if_pos rfl, ih (fun hc => h (List.mem_cons_of_mem b hc))]

theorem dropWhile_sep (pfx rest : Bytes) (h : SEPARATOR ∉ pfx) :
    (pfx ++ SEPARATOR :: rest).dropWhile (fun b => b != SEPARATOR) = SEPARATOR :: rest := by
  induction pfx with
  | nil => simp [List.dropWhile_cons]
  | cons b p ih =>
    have hb : b ≠ SEPARATOR := fun hc => h (hc ▸ List.mem_cons_self b p)
    have hbne : (b != SEPARATOR) = true := by simp [hb]
    rw [List.cons_append, List.dropWhile_cons, hbne]
    rw [if_pos rfl]
    exact ih (fun hc => h (List.mem_cons_of_mem b hc))

theorem charset_facts : ∀ d, d < 32 →
    dataCharOk (CHARSET.getD d 0) ∧ ¬ isUpperByte (CHARSET.getD d 0) ∧
    i8AsU8 (CHARSET_INVERSE.getD (lowerByte1 (CHARSET.getD d 0)) 0) = d ∧
    CHARSET.getD d 0 ≠ SEPARATOR := by
  decide

theorem decode_encode {pfx data : Bytes} (h1 : pfx ≠ []) (h2 : ∀ b ∈ pfx, 33 ≤ b ∧ b ≤ 126)
    (h3 : SEPARATOR ∉ pfx) (h4 : ∀ b ∈ pfx, ¬ isUpperByte b) (h5 : ∀ b ∈ data, b < 256)
    (h6 : MIN_LENGTH ≤ (encode pfx data).length) (h7 : (encode pfx data).length ≤ MAX_LENGTH) :
    decode (encode pfx data) = .ok (pfx, data) := by
  have henc : encode pfx data = pfx ++ [SEPARATOR] ++
      (base32Spec data ++ checksumNew pfx (base32Spec data)).map (fun b => CHARSET.getD b 0) := by
    unfold encode
    rw [convert_encode_eq h5]
  rw [henc, List.append_assoc, List.singleton_append] at h6 h7 ⊢
  set digits := base32Spec data with hdigits
  set cs := checksumNew pfx digits with hcs
  set mapped := (digits ++ cs).map (fun b => CHARSET.getD b 0) with hmapped
  have hdlt : ∀ v ∈ digits ++ cs, v < 32 := by
    intro v hv
    rcases List.mem_append.mp hv with hh | hh
    · exact base32Spec_lt data v hh
    · exact checksumNew_lt pfx digits v hh
  have hmem : SEPARATOR ∈ pfx ++ SEPARATOR :: mapped := by
    apply List.mem_append.mpr
    exact Or.inr (List.mem_cons_self _ _)
  have hcslen : cs.length = 6 := checksumNew_length pfx digits
  have hmlen : mapped.length = digits.length + 6 := by
    rw [hmapped, List.length_map, List.length_append, hcslen]
  unfold decode
  rw [if_neg (not_not_intro hmem), if_neg (not_not_intro ⟨h6, h7⟩)]
  dsimp only
  rw [takeWhile_sep pfx mapped h3, dropWhile_sep pfx mapped h3]
  rw [show (SEPARATOR :: mapped).tail = mapped from rfl]
  have hempty : pfx.isEmpty = false := by
    cases pfx with
    | nil => exact absurd rfl h1
    | cons a l => rfl
  rw [hempty]
  rw [if_neg (by simp)]
  rw [if_neg (by omega)]
  rw [prefixLoop_ok h2]
  have hpfxmap : pfx.map lowerByte1 = pfx := by
    have : ∀ b ∈ pfx, lowerByte1 b = b := by
      intro b hb
      unfold lowerByte1
      rw [if_neg (h4 b hb)]
    rw [List.map_congr_left this]
    simp
  have hupfx : anyUpper pfx = false := by
    unfold anyUpper
    rw [List.any_eq_false]
    intro b hb
    exact fun hc => (h4 b hb) (of_decide_eq_true hc)
  rw [hpfxmap, hupfx]
  dsimp only
  have hmvalid : ∀ b ∈ mapped, dataCharOk b := by
    intro b hb
    obtain ⟨d, hd, rfl⟩ := List.mem_map.mp hb
    exact (charset_facts d (hdlt d hd)).1
  rw [dataLoop_ok hmvalid]
  have hmup : anyUpper mapped = false := by
    unfold anyUpper
    rw [List.any_eq_false]
    intro b hb
    obtain ⟨d, hd, rfl⟩ := List.mem_map.mp hb
    exact fun hc => (charset_facts d (hdlt d hd)).2.1 (of_decide_eq_true hc)
  have hmmap : mapped.map (fun b => i8AsU8 (CHARSET_INVERSE.getD (lowerByte1 b) 0))
      = digits ++ cs := by
    rw [hmapped, List.map_map]
    have : ∀ d ∈ digits ++ cs,
        ((fun b => i8AsU8 (CHARSET_INVERSE.getD (lowerByte1 b) 0)) ∘ fun b => CHARSET.getD b 0) d
        = d := by
      intro d hd
      exact (charset_facts d (hdlt d hd)).2.2.1
    rw [List.map_congr_left this]
    simp
  rw [hmup, hmmap]
  simp only [List.nil_append, Bool.or_false, Bool.false_or]
  rw [if_neg (by simp)]
  have hverify : checksumVerify pfx (digits ++ cs) = true := by
    rw [hcs, hdigits]
    exact checksum_roundtrip (fun b hb => by have := h2 b hb; omega)
      (base32Spec_lt data)
  rw [hverify, if_pos rfl]
  rw [show (digits ++ cs).length - 6 = digits.length by
    rw [List.length_append, hcslen]; omega]
  rw [List.take_left digits cs]
  rw [hdigits, base32_roundtrip h5]

theorem encode_length {pfx data : Bytes} (h5 : ∀ b ∈ data, b < 256) :
    (encode pfx data).length = pfx.length + 7 + (8 * data.length + 4) / 5 := by
  unfold encode
  rw [convert_encode_eq h5]
  show (pfx ++ [SEPARATOR] ++ _).length = _
  rw [List.length_append, List.length_append, List.length_map, List.length_append,
      checksumNew_length, base32Spec_length]
  simp
  omega

end Bech32k

set_option maxRecDepth 100000

/-- Claim C3: for every valid pair `(prefix, bytes)` — prefix non-empty,
all-lowercase (no ASCII upper-case letters), containing only ASCII
`33..=126` and no `';'`, with the encoded string length within `8..=90` —
`bech32k::decode (bech32k::encode prefix bytes) = Ok (prefix, bytes)`;
and concretely `encode("example.prefix", [0x00, 0xFF, 0x01, 0x02, 0x03,
0x2A, 0x65]) = "example.prefix;qrlszqsr9fjsjhjw53"`, which decodes back to
the same prefix and bytes. -/
theorem claim_C3 :
    (∀ pfx data : Bytes, pfx ≠ [] → (∀ b ∈ pfx, 33 ≤ b ∧ b ≤ 126) →
      Bech32k.SEPARATOR ∉ pfx → (∀ b ∈ pfx, ¬ Bech32k.isUpperByte b) →
      (∀ b ∈ data, b < 256) →
      Bech32k.MIN_LENGTH ≤ (Bech32k.encode pfx data).length →
      (Bech32k.encode pfx data).length ≤ Bech32k.MAX_LENGTH →
      Bech32k.decode (Bech32k.encode pfx data) = .ok (pfx, data)) ∧
    Bech32k.encode (strBytes "example.prefix") [0x00, 0xFF, 0x01, 0x02, 0x03, 0x2A, 0x65]
      = strBytes "example.prefix;qrlszqsr9fjsjhjw53" ∧
    Bech32k.decode (strBytes "example.prefix;qrlszqsr9fjsjhjw53")
      = .ok (strBytes "example.prefix", [0x00, 0xFF, 0x01, 0x02, 0x03, 0x2A, 0x65]) := by
  refine ⟨?_, ?_, ?_⟩
  · intro pfx data h1 h2 h3 h4 h5 h6 h7
    exact Bech32k.decode_encode h1 h2 h3 h4 h5 h6 h7
  · decide
  · decide

/-- Witness for C3: the round-trip law applied to the spec's concrete
example. -/
theorem claim_C3_witness :
    Bech32k.decode (Bech32k.encode (strBytes "example.prefix")
      [0x00, 0xFF, 0x01, 0x02, 0x03, 0x2A, 0x65])
      = .ok (strBytes "example.prefix", [0x00, 0xFF, 0x01, 0x02, 0x03, 0x2A, 0x65]) :=
  claim_C3.1 (strBytes "example.prefix") [0x00, 0xFF, 0x01, 0x02, 0x03, 0x2A, 0x65]
    (by decide) (by decide) (by decide) (by decide) (by decide) (by decide) (by decide)

namespace Bech32k

/-- `decode`'s data loop with every partial operation made explicit:
indexing `CHARSET_INVERSE` out of bounds and hitting a negative (absent)
table entry each return `none` (they would be a panic / a corrupted
symbol in the source). -/
def dataLoopChecked : Bytes → Bool → Bool → List Nat →
    Option (Except Error (List Nat × Bool × Bool))
  | [], hasLower, hasUpper, out => some (.ok (out, hasLower, hasUpper))
  | b :: rest, hasLower, hasUpper, out =>
    if dataCharOk b then
      if isUpperByte b then
        match CHARSET_INVERSE[b + 32]? with
        | none => none
        | some inv =>
          if inv < 0 then none
          else dataLoopChecked rest hasLower true (out ++ [inv.toNat])
      else if isLowerByte b then
        match CHARSET_INVERSE[b]? with
        | none => none
        | some inv =>
          if inv < 0 then none
          else dataLoopChecked rest true hasUpper (out ++ [inv.toNat])
      else
        match CHARSET_INVERSE[b]? with
        | none => none
        | some inv =>
          if inv < 0 then none
          else dataLoopChecked rest hasLower hasUpper (out ++ [inv.toNat])
    else some (.error (.charInvalid b))

/-- `decode` with every panic source made explicit as `none`: the
`parts[1]` access, the `CHARSET_INVERSE` indexing, the
`data_bytes_len - 6` usize subtraction feeding `truncate`, and the
`String::from_utf8(prefix_bytes).unwrap()`. -/
def decodeChecked (encoded : Bytes) : Option (Except Error (Bytes × Bytes)) :=
  if ¬ SEPARATOR ∈ encoded then some (.error .separatorMissing)
  else if ¬ (MIN_LENGTH ≤ encoded.length ∧ encoded.length ≤ MAX_LENGTH) then
    some (.error .lengthInvalid)
  else
    let pfx := encoded.takeWhile (fun b => b != SEPARATOR)
    match encoded.dropWhile (fun b => b != SEPARATOR) with
    | [] => none
    | _ :: data =>
      if pfx.isEmpty then some (.error .lengthInvalid)
      else if data.length < 6 then some (.error .lengthInvalid)
      else
        match prefixLoop pfx false false [] with
        | .error e => some (.error e)
        | .ok (pfxBytes, hl1, hu1) =>
          match dataLoopChecked data hl1 hu1 [] with
          | none => none
          | some (.error e) => some (.error e)
          | some (.ok (dataBytes, hasLower, hasUpper)) =>
            if hasLower ∧ hasUpper then some (.error .caseInvalid)
            else if checksumVerify pfxBytes dataBytes then
              if dataBytes.length < 6 then none
              else if ¬ (∀ b ∈ pfxBytes, b < 128) then none
              else
                match Base32Converter.decode.convert (dataBytes.take (dataBytes.length - 6)) with
                | .error e => some (.error e)
                | .ok bytes => some (.ok (pfxBytes, bytes))
            else some (.error .checksumInvalid)

theorem inverse_entry_facts : ∀ b, b < 123 → dataCharOk b →
    lowerByte1 b < 128 ∧ 0 ≤ CHARSET_INVERSE.getD (lowerByte1 b) 0 ∧
    CHARSET_INVERSE.getD (lowerByte1 b) 0 < 256 := by
  decide

theorem dataCharOk_le (b : Nat) (h : dataCharOk b) : b < 123 := by
  rcases h.1 with h1 | h1 | h1 <;> omega

theorem charset_inverse_length : CHARSET_INVERSE.length = 128 := by decide

theorem dataLoopChecked_eq : ∀ (l : Bytes) (hl hu : Bool) (out : List Nat),
    dataLoopChecked l hl hu out = some (dataLoop l hl hu out) := by
  intro l
  induction l with
  | nil => intro hl hu out; rfl
  | cons b rest ih =>
    intro hl hu out
    rw [dataLoopChecked, dataLoop]
    by_cases hok : dataCharOk b
    · have hble := dataCharOk_le b hok
      rw [if_pos hok, if_pos hok]
      have hfacts := inverse_entry_facts b hble hok
      by_cases hub : isUpperByte b
      · rw [if_pos hub, if_pos hub]
        have hidx : b + 32 < CHARSET_INVERSE.length := by
          rw [charset_inverse_length]
          have : lowerByte1 b = b + 32 := by unfold lowerByte1; rw [if_pos hub]
          omega
        rw [List.getElem?_eq_getElem hidx]
        have hgd : CHARSET_INVERSE.getD (b + 32) 0 = CHARSET_INVERSE[b + 32] := by
          rw [List.getD_eq_getElem?_getD, List.getElem?_eq_getElem hidx]
          rfl
        have hlb1 : lowerByte1 b = b + 32 := by unfold lowerByte1; rw [if_pos hub]
        have h0 : 0 ≤ CHARSET_INVERSE[b + 32] := by
          rw [← hgd]; rw [hlb1] at hfacts; exact hfacts.2.1
        have h256 : CHARSET_INVERSE[b + 32] < 256 := by
          rw [← hgd]; rw [hlb1] at hfacts; exact hfacts.2.2
        show (if CHARSET_INVERSE[b + 32] < 0 then none
          else dataLoopChecked rest hl true (out ++ [CHARSET_INVERSE[b + 32].toNat])) = _
        rw [if_neg (by omega)]
        have hcast : i8AsU8 (CHARSET_INVERSE.getD (b + 32) 0) = CHARSET_INVERSE[b + 32].toNat := by
          unfold i8AsU8
          rw [hgd, Int.emod_eq_of_lt h0 h256]
        rw [← hcast]
        exact ih _ _ _
      · rw [if_neg hub, if_neg hub]
        have hlb1 : lowerByte1 b = b := by unfold lowerByte1; rw [if_neg hub]
        have hidx : b < CHARSET_INVERSE.length := by rw [charset_inverse_length]; omega
        have hgd : CHARSET_INVERSE.getD b 0 = CHARSET_INVERSE[b] := by
          rw [List.getD_eq_getElem?_getD, List.getElem?_eq_getElem hidx]
          rfl
        have h0 : 0 ≤ CHARSET_INVERSE[b] := by
          rw [← hgd]; rw [hlb1] at hfacts; exact hfacts.2.1
        have h256 : CHARSET_INVERSE[b] < 256 := by
          rw [← hgd]; rw [hlb1] at hfacts; exact hfacts.2.2
        have hcast : i8AsU8 (CHARSET_INVERSE.getD b 0) = CHARSET_INVERSE[b].toNat := by
          unfold i8AsU8
          rw [hgd, Int.emod_eq_of_lt h0 h256]
        by_cases hlo : isLowerByte b
        · rw [if_pos hlo, if_pos hlo, List.getElem?_eq_getElem hidx]
          show (if CHARSET_INVERSE[b] < 0 then none
            else dataLoopChecked rest true hu (out ++ [CHARSET_INVERSE[b].toNat])) = _
          rw [if_neg (by omega), ← hcast]
          exact ih _ _ _
        · rw [if_neg hlo, if_neg hlo, List.getElem?_eq_getElem hidx]
          show (if CHARSET_INVERSE[b] < 0 then none
            else dataLoopChecked rest hl hu (out ++ [CHARSET_INVERSE[b].toNat])) = _
          rw [if_neg (by omega), ← hcast]
          exact ih _ _ _
    · rw [if_neg hok, if_neg hok]

end Bech32k

namespace Bech32k

theorem prefixLoop_out_lt : ∀ (l : Bytes) (hl hu : Bool) (out res : Bytes) (b1 b2 : Bool),
    prefixLoop l hl hu out = .ok (res, b1, b2) → (∀ b ∈ out, b < 128) → ∀ b ∈ res, b < 128 := by
  intro l
  induction l with
  | nil =>
    intro hl hu out res b1 b2 heq hout
    rw [prefixLoop] at heq
    cases heq
    exact hout
  | cons b rest ih =>
    intro hl hu out res b1 b2 heq hout
    rw [prefixLoop] at heq
    by_cases hr : 33 ≤ b ∧ b ≤ 126
    · rw [if_pos hr] at heq
      by_cases hub : isUpperByte b
      · rw [if_pos hub] at heq
        refine ih _ _ _ _ _ _ heq ?_
        intro x hx
        rcases List.mem_append.mp hx with h1 | h2
        · exact hout x h1
        · simp at h2
          unfold isUpperByte at hub
          omega
      · rw [if_neg hub] at heq
        by_cases hlo : isLowerByte b
        · rw [if_pos hlo] at heq
          refine ih _ _ _ _ _ _ heq ?_
          intro x hx
          rcases List.mem_append.mp hx with h1 | h2
          · exact hout x h1
          · simp at h2
            omega
        · rw [if_neg hlo] at heq
          refine ih _ _ _ _ _ _ heq ?_
          intro x hx
          rcases List.mem_append.mp hx with h1 | h2
          · exact hout x h1
          · simp at h2
            omega
    · rw [if_neg hr] at heq
      cases heq

theorem dataLoop_out_length : ∀ (l : Bytes) (hl hu : Bool) (out res : List Nat) (b1 b2 : Bool),
    dataLoop l hl hu out = .ok (res, b1, b2) → res.length = out.length + l.length := by
  intro l
  induction l with
  | nil =>
    intro hl hu out res b1 b2 heq
    rw [dataLoop] at heq
    cases heq
    simp
  | cons b rest ih =>
    intro hl hu out res b1 b2 heq
    rw [dataLoop] at heq
    by_cases hok : dataCharOk b
    · rw [if_pos hok] at heq
      by_cases hub : isUpperByte b
      · rw [if_pos hub] at heq
        have := ih _ _ _ _ _ _ heq
        simp at this
        simp [this]
        omega
      · rw [if_neg hub] at heq
        by_cases hlo : isLowerByte b
        · rw [if_pos hlo] at heq
          have := ih _ _ _ _ _ _ heq
          simp at this
          simp [this]
          omega
        · rw [if_neg hlo] at heq
          have := ih _ _ _ _ _ _ heq
          simp at this
          simp [this]
          omega
    · rw [if_neg hok] at heq
      cases heq

theorem dropWhile_sep_cons (l : Bytes) (h : SEPARATOR ∈ l) :
    ∃ t, l.dropWhile (fun b => b != SEPARATOR) = SEPARATOR :: t := by
  induction l with
  | nil => cases h
  | cons b rest ih =>
    by_cases hb : b = SEPARATOR
    · subst hb
      refine ⟨rest, ?_⟩
      rw [List.dropWhile_cons]
      simp
    · have hbne : (b != SEPARATOR) = true := by simp [hb]
      rw [List.dropWhile_cons, hbne, if_pos rfl]
      refine ih ?_
      rcases List.mem_cons.mp h with h1 | h1
      · exact absurd h1.symm hb
      · exact h1

end Bech32k

/-- Claim C10: `bech32k::decode` is total — on every input it returns
either a decoded pair or one of the declared errors, and none of its
partial operations can panic: `decodeChecked`, in which the `parts[1]`
access, every `CHARSET_INVERSE` index (which is also checked to be
non-negative), the `data_bytes_len - 6` subtraction and the
`String::from_utf8` unwrap are explicit `none` outcomes, agrees with
`decode` on every input. -/
theorem claim_C10 (encoded : Bytes) :
    Bech32k.decodeChecked encoded = some (Bech32k.decode encoded) := by
  unfold Bech32k.decodeChecked Bech32k.decode
  by_cases hsep : Bech32k.SEPARATOR ∈ encoded
  · rw [if_neg (not_not_intro hsep), if_neg (not_not_intro hsep)]
    by_cases hlen : Bech32k.MIN_LENGTH ≤ encoded.length ∧ encoded.length ≤ Bech32k.MAX_LENGTH
    · rw [if_neg (not_not_intro hlen), if_neg (not_not_intro hlen)]
      dsimp only
      obtain ⟨t, ht⟩ := Bech32k.dropWhile_sep_cons encoded hsep
      rw [ht, List.tail_cons]
      dsimp only
      by_cases hemp : (encoded.takeWhile (fun b => b != Bech32k.SEPARATOR)).isEmpty
      · rw [if_pos hemp, if_pos hemp]
      · rw [if_neg hemp, if_neg hemp]
        by_cases hlen6 : t.length < 6
        · rw [if_pos hlen6, if_pos hlen6]
        · rw [if_neg hlen6, if_neg hlen6]
          cases hpl : Bech32k.prefixLoop
              (encoded.takeWhile (fun b => b != Bech32k.SEPARATOR)) false false [] with
          | error e => rfl
          | ok res =>
            obtain ⟨pfxBytes, hl1, hu1⟩ := res
            dsimp only
            rw [Bech32k.dataLoopChecked_eq]
            cases hdl : Bech32k.dataLoop t hl1 hu1 [] with
            | error e => rfl
            | ok res2 =>
              obtain ⟨dataBytes, hasLower, hasUpper⟩ := res2
              dsimp only

              by_cases hcase : hasLower = true ∧ hasUpper = true
              · rw [if_pos hcase, if_pos hcase]
              · rw [if_neg hcase, if_neg hcase]
                by_cases hcv : Bech32k.checksumVerify pfxBytes dataBytes = true
                · rw [if_pos hcv, if_pos hcv]
                  have hdblen : dataBytes.length = t.length :=
                    by simpa using Bech32k.dataLoop_out_length t hl1 hu1 [] dataBytes _ _ hdl
                  rw [if_neg (by omega)]
                  have hutf : ∀ b ∈ pfxBytes, b < 128 :=
                    Bech32k.prefixLoop_out_lt _ false false [] pfxBytes _ _ hpl (by simp)
                  rw [if_neg (not_not_intro hutf)]
                  cases hcv2 : Bech32k.Base32Converter.decode.convert
                      (dataBytes.take (dataBytes.length - 6)) with
                  | error e => rfl
                  | ok bytes => rfl
                · rw [if_neg hcv, if_neg hcv]
    · rw [if_pos hlen, if_pos hlen]
  · rw [if_pos hsep, if_pos hsep]

/-- Claim C9: for every KeyURI string `k`, `fingerprint k` equals
`bech32k::encode("public.fingerprint:sha-256", SHA-256(bytes of k))`
(with SHA-256 a parameter constrained to produce 32 bytes); it is
deterministic; and the result is a valid KeyURI accepted by
`bech32k::decode`, whose payload decodes to exactly 32 bytes. -/
theorem claim_C9 (sha256 : Bytes → Bytes) (k : Bytes)
    (hlen : (sha256 k).length = 32) (hbytes : ∀ b ∈ sha256 k, b < 256) :
    Keyuri.fingerprint sha256 k = Bech32k.encode Keyuri.FINGERPRINT_PREFIX (sha256 k) ∧
    (∀ k', k = k' → Keyuri.fingerprint sha256 k = Keyuri.fingerprint sha256 k') ∧
    Bech32k.decode (Keyuri.fingerprint sha256 k)
      = .ok (Keyuri.FINGERPRINT_PREFIX, sha256 k) ∧
    (sha256 k).length = 32 := by
  have henclen : (Bech32k.encode Keyuri.FINGERPRINT_PREFIX (sha256 k)).length = 85 := by
    rw [Bech32k.encode_length hbytes, hlen]
    decide
  refine ⟨rfl, fun k' hk => by rw [hk], ?_, hlen⟩
  show Bech32k.decode (Bech32k.encode Keyuri.FINGERPRINT_PREFIX (sha256 k)) = _
  exact Bech32k.decode_encode (by decide) (by decide) (by decide) (by decide) hbytes
    (by rw [henclen]; decide) (by rw [henclen]; decide)

/-- Witness for C9: the fingerprint law applied to a concrete digest
function and input. -/
theorem claim_C9_witness :
    ((fun _ : Bytes => List.replicate 32 0) ([] : Bytes)).length = 32 ∧
    Bech32k.decode (Keyuri.fingerprint (fun _ : Bytes => List.replicate 32 0) [])
      = .ok (Keyuri.FINGERPRINT_PREFIX, List.replicate 32 0) :=
  ⟨by decide,
   (claim_C9 (fun _ : Bytes => List.replicate 32 0) [] (by decide) (by decide)).2.2.1⟩

namespace Bech32k

theorem prefixLoop_ok_valid : ∀ (l : Bytes) (hl hu : Bool) (out : Bytes)
    (res : Bytes × Bool × Bool), prefixLoop l hl hu out = .ok res →
    ∀ b ∈ l, 33 ≤ b ∧ b ≤ 126 := by
  intro l
  induction l with
  | nil => intro _ _ _ _ _ b hb; cases hb
  | cons b rest ih =>
    intro hl hu out res heq x hx
    rw [prefixLoop] at heq
    by_cases hr : 33 ≤ b ∧ b ≤ 126
    · rcases List.mem_cons.mp hx with rfl | hmem
      · exact hr
      · rw [if_pos hr] at heq
        by_cases hub : isUpperByte b
        · rw [if_pos hub] at heq
          exact ih _ _ _ _ heq x hmem
        · rw [if_neg hub] at heq
          by_cases hlo : isLowerByte b
          · rw [if_pos hlo] at heq
            exact ih _ _ _ _ heq x hmem
          · rw [if_neg hlo] at heq
            exact ih _ _ _ _ heq x hmem
    · rw [if_neg hr] at heq
      cases heq

theorem dataLoop_ok_valid : ∀ (l : Bytes) (hl hu : Bool) (out : List Nat)
    (res : List Nat × Bool × Bool), dataLoop l hl hu out = .ok res →
    ∀ b ∈ l, dataCharOk b := by
  intro l
  induction l with
  | nil => intro _ _ _ _ _ b hb; cases hb
  | cons b rest ih =>
    intro hl hu out res heq x hx
    rw [dataLoop] at heq
    by_cases hok : dataCharOk b
    · rcases List.mem_cons.mp hx with rfl | hmem
      · exact hok
      · rw [if_pos hok] at heq
        by_cases hub : isUpperByte b
        · rw [if_pos hub] at heq
          exact ih _ _ _ _ heq x hmem
        · rw [if_neg hub] at heq
          by_cases hlo : isLowerByte b
          · rw [if_pos hlo] at heq
            exact ih _ _ _ _ heq x hmem
          · rw [if_neg hlo] at heq
            exact ih _ _ _ _ heq x hmem
    · rw [if_neg hok] at heq
      cases heq

theorem decode_eq_canonical (s : Bytes) (hsep : SEPARATOR ∈ s)
    (hlen : MIN_LENGTH ≤ s.length ∧ s.length ≤ MAX_LENGTH)
    (hpfxne : (s.takeWhile (fun b => b != SEPARATOR)).isEmpty = false)
    (hdlen : ¬ ((s.dropWhile (fun b => b != SEPARATOR)).tail.length < 6))
    (hvalp : ∀ b ∈ s.takeWhile (fun b => b != SEPARATOR), 33 ≤ b ∧ b ≤ 126)
    (hvald : ∀ b ∈ (s.dropWhile (fun b => b != SEPARATOR)).tail, dataCharOk b) :
    decode s =
      (if (anyLower (s.takeWhile (fun b => b != SEPARATOR)) ||
           anyLower ((s.dropWhile (fun b => b != SEPARATOR)).tail)) ∧
          (anyUpper (s.takeWhile (fun b => b != SEPARATOR)) ||
           anyUpper ((s.dropWhile (fun b => b != SEPARATOR)).tail)) then .error .caseInvalid
       else if checksumVerify ((s.takeWhile (fun b => b != SEPARATOR)).map lowerByte1)
          (((s.dropWhile (fun b => b != SEPARATOR)).tail).map
            (fun b => i8AsU8 (CHARSET_INVERSE.getD (lowerByte1 b) 0))) then
        match Base32Converter.decode.convert
            ((((s.dropWhile (fun b => b != SEPARATOR)).tail).map
              (fun b => i8AsU8 (CHARSET_INVERSE.getD (lowerByte1 b) 0))).take
             ((((s.dropWhile (fun b => b != SEPARATOR)).tail).map
              (fun b => i8AsU8 (CHARSET_INVERSE.getD (lowerByte1 b) 0))).length - 6)) with
        | .error e => .error e
        | .ok bytes => .ok (((s.takeWhile (fun b => b != SEPARATOR)).map lowerByte1), bytes)
       else .error .checksumInvalid) := by
  unfold decode
  rw [if_neg (not_not_intro hsep), if_neg (not_not_intro hlen)]
  dsimp only
  rw [hpfxne]
  rw [if_neg (by simp)]
  rw [if_neg hdlen]
  rw [prefixLoop_ok hvalp]
  dsimp only
  rw [dataLoop_ok hvald]
  simp only [List.nil_append, Bool.false_or]

end Bech32k

namespace Bech32k

theorem decode_ok_inv {s : Bytes} {r : Bytes × Bytes} (h : decode s = .ok r) :
    SEPARATOR ∈ s ∧ (MIN_LENGTH ≤ s.length ∧ s.length ≤ MAX_LENGTH) ∧
    (s.takeWhile (fun b => b != SEPARATOR)).isEmpty = false ∧
    ¬ ((s.dropWhile (fun b => b != SEPARATOR)).tail.length < 6) ∧
    (∀ b ∈ s.takeWhile (fun b => b != SEPARATOR), 33 ≤ b ∧ b ≤ 126) ∧
    (∀ b ∈ (s.dropWhile (fun b => b != SEPARATOR)).tail, dataCharOk b) := by
  unfold decode at h
  by_cases hsep : SEPARATOR ∈ s
  · rw [if_neg (not_not_intro hsep)] at h
    by_cases hlen : MIN_LENGTH ≤ s.length ∧ s.length ≤ MAX_LENGTH
    · rw [if_neg (not_not_intro hlen)] at h
      dsimp only at h
      by_cases hemp : (s.takeWhile (fun b => b != SEPARATOR)).isEmpty
      · rw [if_pos hemp] at h
        cases h
      · rw [if_neg hemp] at h
        by_cases hdlen : (s.dropWhile (fun b => b != SEPARATOR)).tail.length < 6
        · rw [if_pos hdlen] at h
          cases h
        · rw [if_neg hdlen] at h
          refine ⟨hsep, hlen, by simpa using hemp, hdlen, ?_, ?_⟩
          · cases hpl : prefixLoop (s.takeWhile (fun b => b != SEPARATOR)) false false [] with
            | error e => rw [hpl] at h; cases h
            | ok res => exact prefixLoop_ok_valid _ _ _ _ _ hpl
          · cases hpl : prefixLoop (s.takeWhile (fun b => b != SEPARATOR)) false false [] with
            | error e => rw [hpl] at h; cases h
            | ok res =>
              obtain ⟨pfxB, hl1, hu1⟩ := res
              rw [hpl] at h
              dsimp only at h
              cases hdl : dataLoop ((s.dropWhile (fun b => b != SEPARATOR)).tail) hl1 hu1 [] with
              | error e => rw [hdl] at h; cases h
              | ok res2 => exact dataLoop_ok_valid _ _ _ _ _ hdl
    · rw [if_pos hlen] at h
      cases h
  · rw [if_pos hsep] at h
    cases h

theorem decode_mapCase (u : Nat → Nat)
    (hu59 : ∀ b, (u b != SEPARATOR) = (b != SEPARATOR))
    (hcomp : ∀ b, lowerByte1 (u b) = lowerByte1 b)
    (hrange : ∀ b, 33 ≤ b ∧ b ≤ 126 → 33 ≤ u b ∧ u b ≤ 126)
    (hdata : ∀ b, dataCharOk b → dataCharOk (u b))
    (hnomix : (∀ b, ¬ isLowerByte (u b)) ∨ (∀ b, ¬ isUpperByte (u b)))
    {s : Bytes} {r : Bytes × Bytes} (h : decode s = .ok r) :
    decode (s.map u) = .ok r := by
  obtain ⟨hsep, hlen, hpfxne, hdlen, hvalp, hvald⟩ := decode_ok_inv h
  have h59 : u SEPARATOR = SEPARATOR := by
    have := hu59 SEPARATOR
    simpa using this
  have hpe : ((fun b => b != SEPARATOR) ∘ u) = (fun b : Nat => b != SEPARATOR) :=
    funext (fun b => hu59 b)
  have hpmap : (s.map u).takeWhile (fun b => b != SEPARATOR)
      = (s.takeWhile (fun b => b != SEPARATOR)).map u := by
    rw [List.takeWhile_map, hpe]
  obtain ⟨t, ht⟩ := dropWhile_sep_cons s hsep
  have hdmap : ((s.map u).dropWhile (fun b => b != SEPARATOR)).tail
      = ((s.dropWhile (fun b => b != SEPARATOR)).tail).map u := by
    rw [List.dropWhile_map, hpe, ht, List.map_cons, h59, List.tail_cons, List.tail_cons]
  have hsep' : SEPARATOR ∈ s.map u := by
    have := List.mem_map_of_mem u hsep
    rwa [h59] at this
  have hlen' : MIN_LENGTH ≤ (s.map u).length ∧ (s.map u).length ≤ MAX_LENGTH := by
    rw [List.length_map]
    exact hlen
  have hpfxne' : ((s.map u).takeWhile (fun b => b != SEPARATOR)).isEmpty = false := by
    rw [hpmap]
    cases hp : s.takeWhile (fun b => b != SEPARATOR) with
    | nil => rw [hp] at hpfxne; cases hpfxne
    | cons a l => rfl
  have hdlen' : ¬ (((s.map u).dropWhile (fun b => b != SEPARATOR)).tail.length < 6) := by
    rw [hdmap, List.length_map]
    exact hdlen
  have hvalp' : ∀ b ∈ (s.map u).takeWhile (fun b => b != SEPARATOR), 33 ≤ b ∧ b ≤ 126 := by
    rw [hpmap]
    intro b hb
    obtain ⟨x, hx, rfl⟩ := List.mem_map.mp hb
    exact hrange x (hvalp x hx)
  have hvald' : ∀ b ∈ ((s.map u).dropWhile (fun b => b != SEPARATOR)).tail, dataCharOk b := by
    rw [hdmap]
    intro b hb
    obtain ⟨x, hx, rfl⟩ := List.mem_map.mp hb
    exact hdata x (hvald x hx)
  rw [decode_eq_canonical s hsep hlen hpfxne hdlen hvalp hvald] at h
  rw [decode_eq_canonical (s.map u) hsep' hlen' hpfxne' hdlen' hvalp' hvald']
  rw [hpmap, hdmap]
  have hmaplb : ((s.takeWhile (fun b => b != SEPARATOR)).map u).map lowerByte1
      = (s.takeWhile (fun b => b != SEPARATOR)).map lowerByte1 := by
    rw [List.map_map]
    exact List.map_congr_left (fun b _ => hcomp b)
  have hmapinv : (((s.dropWhile (fun b => b != SEPARATOR)).tail).map u).map
        (fun b => i8AsU8 (CHARSET_INVERSE.getD (lowerByte1 b) 0))
      = ((s.dropWhile (fun b => b != SEPARATOR)).tail).map
        (fun b => i8AsU8 (CHARSET_INVERSE.getD (lowerByte1 b) 0)) := by
    rw [List.map_map]
    refine List.map_congr_left (fun b _ => ?_)
    show i8AsU8 (CHARSET_INVERSE.getD (lowerByte1 (u b)) 0) = _
    rw [hcomp b]
  rw [hmaplb, hmapinv]
  have hnomix' : ¬ ((anyLower ((s.takeWhile (fun b => b != SEPARATOR)).map u) ||
        anyLower (((s.dropWhile (fun b => b != SEPARATOR)).tail).map u)) ∧
      (anyUpper ((s.takeWhile (fun b => b != SEPARATOR)).map u) ||
        anyUpper (((s.dropWhile (fun b => b != SEPARATOR)).tail).map u))) := by
    rcases hnomix with hno | hno
    · have hfa : ∀ (l : Bytes), anyLower (l.map u) = false := by
        intro l
        unfold anyLower
        rw [List.any_eq_false]
        intro b hb
        obtain ⟨x, _, rfl⟩ := List.mem_map.mp hb
        exact fun hc => (hno x) (of_decide_eq_true hc)
      intro hc
      rw [hfa, hfa] at hc
      exact absurd hc.1 (by simp)
    · have hfa : ∀ (l : Bytes), anyUpper (l.map u) = false := by
        intro l
        unfold anyUpper
        rw [List.any_eq_false]
        intro b hb
        obtain ⟨x, _, rfl⟩ := List.mem_map.mp hb
        exact fun hc => (hno x) (of_decide_eq_true hc)
      intro hc
      rw [hfa, hfa] at hc
      exact absurd hc.2 (by simp)
  rw [if_neg hnomix']
  by_cases hmix : (anyLower (s.takeWhile (fun b => b != SEPARATOR)) ||
      anyLower ((s.dropWhile (fun b => b != SEPARATOR)).tail)) ∧
      (anyUpper (s.takeWhile (fun b => b != SEPARATOR)) ||
      anyUpper ((s.dropWhile (fun b => b != SEPARATOR)).tail))
  · rw [if_pos hmix] at h
    cases h
  · rw [if_neg hmix] at h
    exact h

end Bech32k

namespace Bech32k

/-- ASCII upper-casing of one byte (`a..=z` to `A..=Z`), used to form the
all-uppercase variant of an encoded string. -/
def upperByte1 (b : Nat) : Nat := if isLowerByte b then b - 32 else b

/-- The all-uppercase form of a byte string. -/
def upperBytes (s : Bytes) : Bytes := s.map upperByte1

/-- The all-lowercase form of a byte string. -/
def lowerBytes (s : Bytes) : Bytes := s.map lowerByte1

theorem upperByte1_sep (b : Nat) : (upperByte1 b != SEPARATOR) = (b != SEPARATOR) := by
  unfold upperByte1 SEPARATOR
  by_cases h : isLowerByte b
  · have h' : 97 ≤ b ∧ b ≤ 122 := h
    rw [if_pos h, bne_iff_ne.mpr (show b - 32 ≠ 59 by omega),
      bne_iff_ne.mpr (show b ≠ 59 by omega)]
  · rw [if_neg h]

theorem lowerByte1_upperByte1 (b : Nat) : lowerByte1 (upperByte1 b) = lowerByte1 b := by
  unfold upperByte1 lowerByte1
  by_cases h : isLowerByte b
  · have h' : 97 ≤ b ∧ b ≤ 122 := h
    rw [if_pos h, if_pos (show isUpperByte (b - 32) from ⟨by omega, by omega⟩),
      if_neg (show ¬ isUpperByte b from fun hc => by
        have hc' : 65 ≤ b ∧ b ≤ 90 := hc
        omega)]
    omega
  · rw [if_neg h]

theorem upperByte1_range (b : Nat) : 33 ≤ b ∧ b ≤ 126 → 33 ≤ upperByte1 b ∧ upperByte1 b ≤ 126 := by
  intro hr
  unfold upperByte1
  by_cases h : isLowerByte b
  · have h' : 97 ≤ b ∧ b ≤ 122 := h
    rw [if_pos h]
    omega
  · rw [if_neg h]
    exact hr

theorem upperByte1_data (b : Nat) : dataCharOk b → dataCharOk (upperByte1 b) := by
  intro hd
  have hd' : ((48 ≤ b ∧ b ≤ 57) ∨ (65 ≤ b ∧ b ≤ 90) ∨ (97 ≤ b ∧ b ≤ 122)) ∧
      ¬(b = 49 ∨ b = 66 ∨ b = 73 ∨ b = 79 ∨ b = 98 ∨ b = 105 ∨ b = 111) := hd
  unfold upperByte1
  by_cases h : isLowerByte b
  · have h' : 97 ≤ b ∧ b ≤ 122 := h
    rw [if_pos h]
    show ((48 ≤ b - 32 ∧ b - 32 ≤ 57) ∨ (65 ≤ b - 32 ∧ b - 32 ≤ 90) ∨
        (97 ≤ b - 32 ∧ b - 32 ≤ 122)) ∧
      ¬(b - 32 = 49 ∨ b - 32 = 66 ∨ b - 32 = 73 ∨ b - 32 = 79 ∨ b - 32 = 98 ∨
        b - 32 = 105 ∨ b - 32 = 111)
    omega
  · rw [if_neg h]
    exact hd

theorem upperByte1_noLower (b : Nat) : ¬ isLowerByte (upperByte1 b) := by
  intro hc
  have hc' : 97 ≤ upperByte1 b ∧ upperByte1 b ≤ 122 := hc
  unfold upperByte1 at hc'
  by_cases h : isLowerByte b
  · have h' : 97 ≤ b ∧ b ≤ 122 := h
    rw [if_pos h] at hc'
    omega
  · rw [if_neg h] at hc'
    exact h hc'

theorem lowerByte1_sep (b : Nat) : (lowerByte1 b != SEPARATOR) = (b != SEPARATOR) := by
  unfold lowerByte1 SEPARATOR
  by_cases h : isUpperByte b
  · have h' : 65 ≤ b ∧ b ≤ 90 := h
    rw [if_pos h, bne_iff_ne.mpr (show b + 32 ≠ 59 by omega),
      bne_iff_ne.mpr (show b ≠ 59 by omega)]
  · rw [if_neg h]

theorem lowerByte1_idem (b : Nat) : lowerByte1 (lowerByte1 b) = lowerByte1 b := by
  unfold lowerByte1
  by_cases h : isUpperByte b
  · have h' : 65 ≤ b ∧ b ≤ 90 := h
    rw [if_pos h, if_neg (show ¬ isUpperByte (b + 32) from fun hc => by
      have hc' : 65 ≤ b + 32 ∧ b + 32 ≤ 90 := hc
      omega)]
  · rw [if_neg h, if_neg h]

theorem lowerByte1_range (b : Nat) : 33 ≤ b ∧ b ≤ 126 → 33 ≤ lowerByte1 b ∧ lowerByte1 b ≤ 126 := by
  intro hr
  unfold lowerByte1
  by_cases h : isUpperByte b
  · have h' : 65 ≤ b ∧ b ≤ 90 := h
    rw [if_pos h]
    omega
  · rw [if_neg h]
    exact hr

theorem lowerByte1_data (b : Nat) : dataCharOk b → dataCharOk (lowerByte1 b) := by
  intro hd
  have hd' : ((48 ≤ b ∧ b ≤ 57) ∨ (65 ≤ b ∧ b ≤ 90) ∨ (97 ≤ b ∧ b ≤ 122)) ∧
      ¬(b = 49 ∨ b = 66 ∨ b = 73 ∨ b = 79 ∨ b = 98 ∨ b = 105 ∨ b = 111) := hd
  unfold lowerByte1
  by_cases h : isUpperByte b
  · have h' : 65 ≤ b ∧ b ≤ 90 := h
    rw [if_pos h]
    show ((48 ≤ b + 32 ∧ b + 32 ≤ 57) ∨ (65 ≤ b + 32 ∧ b + 32 ≤ 90) ∨
        (97 ≤ b + 32 ∧ b + 32 ≤ 122)) ∧
      ¬(b + 32 = 49 ∨ b + 32 = 66 ∨ b + 32 = 73 ∨ b + 32 = 79 ∨ b + 32 = 98 ∨
        b + 32 = 105 ∨ b + 32 = 111)
    omega
  · rw [if_neg h]
    exact hd

theorem lowerByte1_noUpper (b : Nat) : ¬ isUpperByte (lowerByte1 b) := by
  intro hc
  have hc' : 65 ≤ lowerByte1 b ∧ lowerByte1 b ≤ 90 := hc
  unfold lowerByte1 at hc'
  by_cases h : isUpperByte b
  · have h' : 65 ≤ b ∧ b ≤ 90 := h
    rw [if_pos h] at hc'
    omega
  · rw [if_neg h] at hc'
    exact h hc'

theorem decode_upperBytes {s : Bytes} {r : Bytes × Bytes} (h : decode s = .ok r) :
    decode (upperBytes s) = .ok r :=
  decode_mapCase upperByte1 upperByte1_sep lowerByte1_upperByte1 upperByte1_range
    upperByte1_data (Or.inl upperByte1_noLower) h

theorem decode_lowerBytes {s : Bytes} {r : Bytes × Bytes} (h : decode s = .ok r) :
    decode (lowerBytes s) = .ok r :=
  decode_mapCase lowerByte1 lowerByte1_sep lowerByte1_idem lowerByte1_range
    lowerByte1_data (Or.inr lowerByte1_noUpper) h

end Bech32k

/-- Claim C8 (amended): for every decodable bech32k string, decoding the
all-uppercase form and the all-lowercase form yields the same `(prefix,
payload)` result as decoding the string itself; any structurally valid
input whose combined prefix and data regions contain both an upper-case
and a lower-case letter fails with `CaseInvalid`; concretely the
single-case forms `"EXAMPLE.PREFIX;QRLSZQSR9FJSJHJW53"` and
`"example.prefix;qrlszqsr9fjsjhjw53"` decode to identical results, while
the mixed-case `"example.Prefix;qrlszqsr9fjsjhjw53"` fails with
`CaseInvalid` (and so does the title-case
`"Example.Prefix;QRLSZQSR9FJSJHJW53"`, whose prefix itself mixes case —
see the counterexample to the claim as stated). -/
theorem claim_C8 :
    (∀ (s : Bytes) (r : Bytes × Bytes), Bech32k.decode s = .ok r →
      Bech32k.decode (Bech32k.upperBytes s) = .ok r ∧
      Bech32k.decode (Bech32k.lowerBytes s) = .ok r) ∧
    (∀ s : Bytes, Bech32k.SEPARATOR ∈ s →
      Bech32k.MIN_LENGTH ≤ s.length ∧ s.length ≤ Bech32k.MAX_LENGTH →
      (s.takeWhile (fun b => b != Bech32k.SEPARATOR)).isEmpty = false →
      ¬ ((s.dropWhile (fun b => b != Bech32k.SEPARATOR)).tail.length < 6) →
      (∀ b ∈ s.takeWhile (fun b => b != Bech32k.SEPARATOR), 33 ≤ b ∧ b ≤ 126) →
      (∀ b ∈ (s.dropWhile (fun b => b != Bech32k.SEPARATOR)).tail, Bech32k.dataCharOk b) →
      (Bech32k.anyLower (s.takeWhile (fun b => b != Bech32k.SEPARATOR)) ||
        Bech32k.anyLower ((s.dropWhile (fun b => b != Bech32k.SEPARATOR)).tail)) = true →
      (Bech32k.anyUpper (s.takeWhile (fun b => b != Bech32k.SEPARATOR)) ||
        Bech32k.anyUpper ((s.dropWhile (fun b => b != Bech32k.SEPARATOR)).tail)) = true →
      Bech32k.decode s = .error .caseInvalid) ∧
    Bech32k.decode (strBytes "EXAMPLE.PREFIX;QRLSZQSR9FJSJHJW53")
      = .ok (strBytes "example.prefix", [0x00, 0xFF, 0x01, 0x02, 0x03, 0x2A, 0x65]) ∧
    Bech32k.decode (strBytes "example.prefix;qrlszqsr9fjsjhjw53")
      = .ok (strBytes "example.prefix", [0x00, 0xFF, 0x01, 0x02, 0x03, 0x2A, 0x65]) ∧
    Bech32k.decode (strBytes "example.Prefix;qrlszqsr9fjsjhjw53")
      = .error .caseInvalid := by
  refine ⟨?_, ?_, by decide, by decide, by decide⟩
  · intro s r h
    exact ⟨Bech32k.decode_upperBytes h, Bech32k.decode_lowerBytes h⟩
  · intro s hsep hlen hpfxne hdlen hvalp hvald hml hmu
    rw [Bech32k.decode_eq_canonical s hsep hlen hpfxne hdlen hvalp hvald,
      if_pos ⟨hml, hmu⟩]

/-- Counterexample to C8 as stated: decoding
`"Example.Prefix;QRLSZQSR9FJSJHJW53"` does not succeed — the title-case
prefix `"Example.Prefix"` already mixes upper and lower case, so `decode`
returns `CaseInvalid`. -/
theorem claim_C8_counterexample :
    Bech32k.decode (strBytes "Example.Prefix;QRLSZQSR9FJSJHJW53")
      = .error .caseInvalid := by decide

/-- Witness for C8: the case-transport law applied to the concrete
decodable string `"example.prefix;qrlszqsr9fjsjhjw53"`. -/
theorem claim_C8_witness :
    Bech32k.decode (Bech32k.upperBytes (strBytes "example.prefix;qrlszqsr9fjsjhjw53"))
      = .ok (strBytes "example.prefix", [0x00, 0xFF, 0x01, 0x02, 0x03, 0x2A, 0x65]) ∧
    Bech32k.decode (Bech32k.lowerBytes (strBytes "example.prefix;qrlszqsr9fjsjhjw53"))
      = .ok (strBytes "example.prefix", [0x00, 0xFF, 0x01, 0x02, 0x03, 0x2A, 0x65]) :=
  claim_C8.1 (strBytes "example.prefix;qrlszqsr9fjsjhjw53")
    (strBytes "example.prefix", [0x00, 0xFF, 0x01, 0x02, 0x03, 0x2A, 0x65]) (by decide)

namespace Placer

theorem routeFile_eq_some (targets : List (Bytes × TargetFile)) (packName : Bytes)
    (f : PlacerPack.PackFile) (t : TargetFile) (b : Bytes) :
    routeFile targets packName f = some (t, b) ↔
      mapGet targets f.filename = some t ∧ t.pack = packName ∧ b = f.body := by
  unfold routeFile
  cases h : mapGet targets f.filename with
  | none => simp
  | some target =>
    dsimp only
    by_cases hp : target.pack = packName
    · rw [if_pos hp]
      constructor
      · intro he
        cases he
        exact ⟨rfl, hp, rfl⟩
      · rintro ⟨h1, h2, h3⟩
        cases h1
        rw [h3]
    · rw [if_neg hp]
      constructor
      · intro he
        cases he
      · rintro ⟨h1, h2, h3⟩
        cases h1
        exact absurd h2 hp

end Placer

/-- Claim C5: a `(target, body)` placement is delegated by `process_pack`
exactly when some file of the delivered pack has a target-table entry for
its path whose configured pack name equals the delivered pack's label (and
the body is that file's body); consequently a target configured for a
different pack is never written — files with no table entry or a
mismatched pack name are only logged. -/
theorem claim_C5 :
    (∀ (packName : Bytes) (files : List PlacerPack.PackFile)
      (targets : List (Bytes × Placer.TargetFile)) (t : Placer.TargetFile) (b : Bytes),
      (t, b) ∈ Placer.processPack packName files targets ↔
        ∃ f ∈ files, Placer.mapGet targets f.filename = some t ∧
          t.pack = packName ∧ b = f.body) ∧
    (∀ (packName : Bytes) (files : List PlacerPack.PackFile)
      (targets : List (Bytes × Placer.TargetFile)) (t : Placer.TargetFile) (b : Bytes),
      t.pack ≠ packName → (t, b) ∉ Placer.processPack packName files targets) := by
  have hmain : ∀ (packName : Bytes) (files : List PlacerPack.PackFile)
      (targets : List (Bytes × Placer.TargetFile)) (t : Placer.TargetFile) (b : Bytes),
      (t, b) ∈ Placer.processPack packName files targets ↔
        ∃ f ∈ files, Placer.mapGet targets f.filename = some t ∧
          t.pack = packName ∧ b = f.body := by
    intro packName files targets t b
    unfold Placer.processPack
    rw [List.mem_filterMap]
    exact exists_congr (fun f => and_congr_right
      (fun _ => Placer.routeFile_eq_some targets packName f t b))
  refine ⟨hmain, ?_⟩
  intro packName files targets t b hne hmem
  obtain ⟨f, _, _, hpk, _⟩ := (hmain packName files targets t b).mp hmem
  exact hne hpk

/-- Witness for C5: a target configured for pack `[65]` is not written when
its file arrives in a pack labelled `[66]`. -/
theorem claim_C5_witness :
    ((⟨[112], [65], 0, 0, 420, [], []⟩ : Placer.TargetFile), ([1] : Bytes)) ∉
      Placer.processPack [66] [⟨[112], [], none, [1]⟩]
        [([112], ⟨[112], [65], 0, 0, 420, [], []⟩)] :=
  claim_C5.2 [66] [⟨[112], [], none, [1]⟩] [([112], ⟨[112], [65], 0, 0, 420, [], []⟩)]
    ⟨[112], [65], 0, 0, 420, [], []⟩ [1] (by decide)

namespace Placer

theorem runHooksLoop_fail (exec : HookExec) (p : Bytes) (h : Hook) (post : List Hook)
    (e : Error) (hfail : Hook.run exec h p = .error e) :
    ∀ pre : List Hook, (∀ h' ∈ pre, Hook.run exec h' p = .ok ()) →
      runHooksLoop exec (pre ++ h :: post) p =
        (.error e, pre.map (fun h' => PlaceEvent.runHook h' p) ++ [.runHook h p]) := by
  intro pre
  induction pre with
  | nil =>
    intro _
    show runHooksLoop exec (h :: post) p = _
    unfold runHooksLoop
    rw [hfail]
    simp
  | cons a rest ih =>
    intro hpre
    show runHooksLoop exec (a :: (rest ++ h :: post)) p = _
    unfold runHooksLoop
    rw [hpre a (List.mem_cons_self a rest)]
    dsimp only
    rw [ih (fun h' hm => hpre h' (List.mem_cons_of_mem a hm))]
    simp

theorem hookRun_fail_of_status (exec : HookExec) (h : Hook) (p : Bytes)
    (hfail : (∃ c : Int, c ≠ 0 ∧ exec h (substArgs h.args p) = .status (.code c)) ∨
      (∃ sig, exec h (substArgs h.args p) = .status (.signal sig))) :
    ∃ e : Error, Hook.run exec h p = .error e ∧ e.kind = .hook := by
  rcases hfail with ⟨c, hc, hx⟩ | ⟨sig, hx⟩
  · refine ⟨⟨.hook, "exited with non-zero error code"⟩, ?_, rfl⟩
    unfold Hook.run
    rw [hx]
    dsimp only
    rw [if_neg hc]
  · refine ⟨⟨.hook, "killed by signal"⟩, ?_, rfl⟩
    unfold Hook.run
    rw [hx]

end Placer

/-- Claim C6: if a before-hook exits with a non-zero code or is killed by
a signal while the hooks preceding it succeeded, `TargetFile::place`
aborts: it returns a `Hook`-class error, the file system is left with the
target path's previous content and no temp file, the recorded effects are
exactly the temp-file setup, the hook invocations up to and including the
failing one, and the temp-file removal — so no rename happens and no hook
beyond the failing one runs. -/
theorem claim_C6 (exec : Placer.HookExec) (t : Placer.TargetFile) (body : Bytes)
    (fs : Placer.FsState) (pre : List Placer.Hook) (h : Placer.Hook)
    (post : List Placer.Hook)
    (hsplit : t.beforeHooks = pre ++ h :: post)
    (hpre : ∀ h' ∈ pre, Placer.Hook.run exec h' (Placer.tempPathOf t.path) = .ok ())
    (hfail : (∃ c : Int, c ≠ 0 ∧
        exec h (Placer.substArgs h.args (Placer.tempPathOf t.path)) = .status (.code c)) ∨
      (∃ sig, exec h (Placer.substArgs h.args (Placer.tempPathOf t.path))
        = .status (.signal sig))) :
    ∃ (e : Placer.Error) (evs : List Placer.PlaceEvent),
      t.place exec body fs = (.error e, ⟨fs.target, none⟩, evs) ∧
      evs = [.removeTemp, .writeTemp body, .chownTemp t.uid t.gid] ++
        (pre.map (fun h' => Placer.PlaceEvent.runHook h' (Placer.tempPathOf t.path)) ++
          [.runHook h (Placer.tempPathOf t.path)]) ++ [.removeTemp] ∧
      e.kind = .hook ∧
      Placer.PlaceEvent.renameOver ∉ evs ∧
      (∀ h' : Placer.Hook, (∃ p', Placer.PlaceEvent.runHook h' p' ∈ evs) →
        h' ∈ pre ++ [h]) := by
  obtain ⟨e, hrun, hkind⟩ := Placer.hookRun_fail_of_status exec h (Placer.tempPathOf t.path) hfail
  refine ⟨e, _, ?_, rfl, hkind, ?_, ?_⟩
  · unfold Placer.TargetFile.place
    dsimp only
    rw [hsplit, Placer.runHooksLoop_fail exec (Placer.tempPathOf t.path) h post e hrun pre hpre]
  · simp
  · intro h' hp'
    obtain ⟨p', hm⟩ := hp'
    rcases List.mem_append.mp hm with hm1 | hm2
    · rcases List.mem_append.mp hm1 with hm3 | hm4
      · simp at hm3
      · rcases List.mem_append.mp hm4 with hm5 | hm6
        · obtain ⟨x, hx, he⟩ := List.mem_map.mp hm5
          cases he
          exact List.mem_append_left _ hx
        · rw [List.mem_singleton] at hm6
          cases hm6
          exact List.mem_append_right _ (List.mem_singleton.mpr rfl)
    · simp at hm2

/-- Witness for C6: a single failing before-hook (exit code 1) aborts a
concrete placement. -/
theorem claim_C6_witness :
    ∃ (e : Placer.Error) (evs : List Placer.PlaceEvent),
      Placer.TargetFile.place (fun _ _ => Placer.HookOutcome.status (.code 1))
          ⟨[47, 102], [65], 0, 0, 420, [⟨[104], 0, 0, []⟩], []⟩ [9]
          ⟨some [7], none⟩
        = (.error e, ⟨some [7], none⟩, evs) ∧
      evs = [.removeTemp, .writeTemp [9], .chownTemp 0 0] ++
        (([] : List Placer.Hook).map (fun h' => Placer.PlaceEvent.runHook h'
            (Placer.tempPathOf [47, 102])) ++
          [.runHook ⟨[104], 0, 0, []⟩ (Placer.tempPathOf [47, 102])]) ++ [.removeTemp] ∧
      e.kind = .hook ∧
      Placer.PlaceEvent.renameOver ∉ evs ∧
      (∀ h' : Placer.Hook, (∃ p', Placer.PlaceEvent.runHook h' p' ∈ evs) →
        h' ∈ ([] : List Placer.Hook) ++ [⟨[104], 0, 0, []⟩]) :=
  claim_C6 (fun _ _ => Placer.HookOutcome.status (.code 1))
    ⟨[47, 102], [65], 0, 0, 420, [⟨[104], 0, 0, []⟩], []⟩ [9] ⟨some [7], none⟩
    [] ⟨[104], 0, 0, []⟩ [] rfl (fun h' hm => absurd hm (List.not_mem_nil h'))
    (Or.inl ⟨1, by decide, rfl⟩)

namespace Placer

theorem runHooksLoop_ok (exec : HookExec) (p : Bytes) :
    ∀ hooks : List Hook, (∀ h' ∈ hooks, Hook.run exec h' p = .ok ()) →
      runHooksLoop exec hooks p =
        (.ok (), hooks.map (fun h' => PlaceEvent.runHook h' p)) := by
  intro hooks
  induction hooks with
  | nil => intro _; rfl
  | cons a rest ih =>
    intro hok
    unfold runHooksLoop
    rw [hok a (List.mem_cons_self a rest)]
    dsimp only
    rw [ih (fun h' hm => hok h' (List.mem_cons_of_mem a hm))]
    simp

theorem place_ok (exec : HookExec) (t : TargetFile) (body : Bytes) (fs : FsState)
    (hok : ∀ h' ∈ t.beforeHooks ++ t.afterHooks,
      Hook.run exec h' (tempPathOf t.path) = .ok ()) :
    t.place exec body fs = (.ok (), ⟨some body, none⟩,
      [.removeTemp, .writeTemp body, .chownTemp t.uid t.gid] ++
        t.beforeHooks.map (fun h' => PlaceEvent.runHook h' (tempPathOf t.path)) ++
        [.renameOver] ++
        t.afterHooks.map (fun h' => PlaceEvent.runHook h' (tempPathOf t.path))) := by
  unfold TargetFile.place
  dsimp only
  rw [runHooksLoop_ok exec (tempPathOf t.path) t.beforeHooks
    (fun h' hm => hok h' (List.mem_append_left _ hm))]
  dsimp only
  rw [runHooksLoop_ok exec (tempPathOf t.path) t.afterHooks
    (fun h' hm => hok h' (List.mem_append_right _ hm))]

end Placer

/-- Claim C7: when the target file exists, is readable, and its SHA-256
digest equals the proposed body's digest, `place_file_if_updated` does
nothing (no events at all — no temp file, no hook, no rename); and when
the hooks succeed and the target is missing or differs, placing runs
exactly one temp-file-and-rename cycle with one set of hook executions,
after which a second invocation with the same body does nothing. -/
theorem claim_C7 (sha256 : Bytes → Bytes) (exec : Placer.HookExec)
    (t : Placer.TargetFile) (body : Bytes) (fs : Placer.FsState) :
    (∀ data, fs.target = some data →
      Placer.digestForBytes sha256 data = Placer.digestForBytes sha256 body →
      Placer.placeFileIfUpdated sha256 exec false t body fs = (fs, [])) ∧
    ((∀ h' ∈ t.beforeHooks ++ t.afterHooks,
        Placer.Hook.run exec h' (Placer.tempPathOf t.path) = .ok ()) →
      (fs.target = none ∨ ∃ data, fs.target = some data ∧
        Placer.digestForBytes sha256 data ≠ Placer.digestForBytes sha256 body) →
      Placer.placeFileIfUpdated sha256 exec false t body fs =
        (⟨some body, none⟩,
         [.removeTemp, .writeTemp body, .chownTemp t.uid t.gid] ++
           t.beforeHooks.map (fun h' => Placer.PlaceEvent.runHook h' (Placer.tempPathOf t.path)) ++
           [.renameOver] ++
           t.afterHooks.map (fun h' => Placer.PlaceEvent.runHook h' (Placer.tempPathOf t.path))) ∧
      Placer.placeFileIfUpdated sha256 exec false t body ⟨some body, none⟩
        = (⟨some body, none⟩, [])) := by
  constructor
  · intro data hta hdig
    unfold Placer.placeFileIfUpdated
    rw [hta]
    dsimp only
    rw [if_neg (fun hc : false = true => Bool.false_ne_true hc), if_pos hdig]
  · intro hok hchanged
    constructor
    · rcases hchanged with htn | ⟨data, hta, hne⟩
      · unfold Placer.placeFileIfUpdated
        rw [htn]
        dsimp only
        rw [Placer.place_ok exec t body fs hok]
      · unfold Placer.placeFileIfUpdated
        rw [hta]
        dsimp only
        rw [if_neg (fun hc : false = true => Bool.false_ne_true hc), if_neg hne]
        rw [Placer.place_ok exec t body fs hok]
    · unfold Placer.placeFileIfUpdated
      dsimp only
      rw [if_neg (fun hc : false = true => Bool.false_ne_true hc),
        if_pos (rfl : Placer.digestForBytes sha256 body = Placer.digestForBytes sha256 body)]

/-- Witness for C7: with no hooks configured, a first placement of `[9]`
over an empty target performs one write-and-rename cycle and a second
invocation (and any invocation on an already-matching target) does
nothing. -/
theorem claim_C7_witness :
    Placer.placeFileIfUpdated (fun l => l) (fun _ _ => Placer.HookOutcome.status (.code 0))
        false ⟨[47, 102], [65], 0, 0, 420, [], []⟩ [9] ⟨some [9], none⟩
      = (⟨some [9], none⟩, []) ∧
    (Placer.placeFileIfUpdated (fun l => l) (fun _ _ => Placer.HookOutcome.status (.code 0))
        false ⟨[47, 102], [65], 0, 0, 420, [], []⟩ [9] ⟨none, none⟩
      = (⟨some [9], none⟩,
         [.removeTemp, .writeTemp [9], .chownTemp 0 0] ++
           ([] : List Placer.Hook).map (fun h' => Placer.PlaceEvent.runHook h'
             (Placer.tempPathOf [47, 102])) ++
           [.renameOver] ++
           ([] : List Placer.Hook).map (fun h' => Placer.PlaceEvent.runHook h'
             (Placer.tempPathOf [47, 102]))) ∧
     Placer.placeFileIfUpdated (fun l => l) (fun _ _ => Placer.HookOutcome.status (.code 0))
        false ⟨[47, 102], [65], 0, 0, 420, [], []⟩ [9] ⟨some [9], none⟩
      = (⟨some [9], none⟩, [])) :=
  ⟨(claim_C7 (fun l => l) (fun _ _ => Placer.HookOutcome.status (.code 0))
      ⟨[47, 102], [65], 0, 0, 420, [], []⟩ [9] ⟨some [9], none⟩).1 [9] rfl rfl,
   (claim_C7 (fun l => l) (fun _ _ => Placer.HookOutcome.status (.code 0))
      ⟨[47, 102], [65], 0, 0, 420, [], []⟩ [9] ⟨none, none⟩).2
     (fun h' hm => absurd hm (List.not_mem_nil h')) (Or.inl rfl)⟩

/-- Claim C1: in every run of `Pack::verify_and_decrypt` the trace of
crypto calls is either empty, a single failed Ed25519 verification, or a
successful Ed25519 verification over the envelope's ciphertext followed by
one AEAD open whose associated data is exactly `[date bytes,
encryption-key fingerprint, signing-key fingerprint]` taken from the
envelope — so verification always precedes decryption; and
`Pack::encrypt_and_sign` seals with the same associated-data tuple in the
same order. -/
theorem claim_C1 :
    (∀ (ops : PlacerPack.ExtOps)
       (keyLookup : PlacerPack.Fingerprints → PlacerPack.Uuid →
         Option (PlacerPack.PublicKey × PlacerPack.Encryptor))
       (now : Int) (bytes : Bytes),
      (PlacerPack.verifyAndDecrypt ops keyLookup now bytes).2 = [] ∨
      (∃ m s, (PlacerPack.verifyAndDecrypt ops keyLookup now bytes).2
        = [.verifyCall m s false]) ∨
      (∃ (proto : PlacerPack.PackProto) (dp : PlacerPack.Tai64n),
        ops.protoDecode (bytes.drop PlacerPack.PACK_V0_MAGIC_STRING.length) = .ok proto ∧
        proto.date = some dp ∧
        (PlacerPack.verifyAndDecrypt ops keyLookup now bytes).2
          = [.verifyCall proto.ciphertext proto.signature true,
             .openCall (PlacerPack.packAd dp.value proto.encryptionKeyFingerprint
               proto.signingKeyFingerprint) proto.ciphertext])) ∧
    (∀ (sops : PlacerPack.SignOps) (pack : PlacerPack.Pack)
       (encryptor : PlacerPack.Encryptor),
      (PlacerPack.encryptAndSign sops pack encryptor).2 = [] ∨
      (∃ pk, sops.signerPublicKey = .ok pk ∧
        (PlacerPack.encryptAndSign sops pack encryptor).2
          = [.sealCall (PlacerPack.packAd (PlacerPack.tai64nFromDatetime pack.date).value
              encryptor.fingerprint (pk.toFingerprint sops.sha256))
              (sops.payloadEncode pack.files)])) := by
  constructor
  · intro ops keyLookup now bytes
    unfold PlacerPack.verifyAndDecrypt
    by_cases h1 : bytes.length < PlacerPack.PACK_V0_MAGIC_STRING.length
    · rw [if_pos h1]
      exact Or.inl rfl
    · rw [if_neg h1]
      by_cases h2 : bytes.take PlacerPack.PACK_V0_MAGIC_STRING.length
          ≠ PlacerPack.PACK_V0_MAGIC_STRING
      · rw [if_pos h2]
        exact Or.inl rfl
      · rw [if_neg h2]
        cases hp : ops.protoDecode (bytes.drop PlacerPack.PACK_V0_MAGIC_STRING.length) with
        | error e => exact Or.inl rfl
        | ok proto =>
          dsimp only
          cases hu : ops.uuidParse proto.uuid with
          | error e => exact Or.inl rfl
          | ok uuid =>
            dsimp only
            cases hk : keyLookup ⟨proto.signingKeyFingerprint,
                proto.encryptionKeyFingerprint⟩ uuid with
            | none => exact Or.inl rfl
            | some pe =>
              obtain ⟨publicKey, encryptor⟩ := pe
              dsimp only
              cases hd : proto.date with
              | none => exact Or.inl rfl
              | some dp =>
                dsimp only
                cases ht : PlacerPack.tai64nToDatetimeUtc dp with
                | none => exact Or.inl rfl
                | some date =>
                  dsimp only
                  by_cases hs : proto.signature.length ≠ PlacerPack.SIGNATURE_SIZE
                  · have hv : PlacerPack.PublicKey.verify ops.ed25519Verify publicKey
                        proto.ciphertext proto.signature
                        = (.error ⟨.crypto, "invalid signature size"⟩,
                           ([] : List PlacerPack.CryptoCall)) := by
                      unfold PlacerPack.PublicKey.verify
                      rw [if_pos hs]
                    rw [hv]
                    exact Or.inl rfl
                  · cases hok : ops.ed25519Verify publicKey.bytes proto.ciphertext
                        proto.signature with
                    | false =>
                      have hv : PlacerPack.PublicKey.verify ops.ed25519Verify publicKey
                          proto.ciphertext proto.signature
                          = (.error ⟨.crypto, "signature verification failed!"⟩,
                             [.verifyCall proto.ciphertext proto.signature false]) := by
                        unfold PlacerPack.PublicKey.verify
                        rw [if_neg hs]
                        dsimp only
                        rw [hok]
                        simp
                      rw [hv]
                      exact Or.inr (Or.inl ⟨proto.ciphertext, proto.signature, rfl⟩)
                    | true =>
                      have hv : PlacerPack.PublicKey.verify ops.ed25519Verify publicKey
                          proto.ciphertext proto.signature
                          = (.ok (), [.verifyCall proto.ciphertext proto.signature true]) := by
                        unfold PlacerPack.PublicKey.verify
                        rw [if_neg hs]
                        dsimp only
                        rw [hok]
                        simp
                      rw [hv]
                      dsimp only
                      refine Or.inr (Or.inr ⟨proto, dp, rfl, hd, ?_⟩)
                      split
                      · rfl
                      split
                      · rfl
                      split
                      · rfl
                      · rfl
  · intro sops pack encryptor
    unfold PlacerPack.encryptAndSign
    dsimp only
    cases hsk : sops.signerPublicKey with
    | error e => exact Or.inl rfl
    | ok pk =>
      dsimp only
      by_cases hsize : (sops.payloadEncode pack.files).length > PlacerPack.MAX_PACK_SIZE
      · rw [if_pos hsize]
        exact Or.inl rfl
      · rw [if_neg hsize]
        refine Or.inr ⟨pk, rfl, ?_⟩
        split
        · rfl
        split
        · rfl
        · rfl

namespace PlacerPack

theorem numSeconds_gt_of_ge {d : Int} (h : 86401 * 1000000000 ≤ d) :
    86400 < numSeconds d := by
  unfold numSeconds
  cases d with
  | ofNat n =>
    rw [show Int.div (Int.ofNat n) 1000000000 = Int.ofNat (n / 1000000000) from rfl]
    simp only [Int.ofNat_eq_natCast] at h ⊢
    omega
  | negSucc n =>
    exfalso
    simp only [Int.negSucc_eq] at h
    omega

theorem numSeconds_not_gt_of_le {d : Int} (h : d ≤ 86400 * 1000000000) :
    ¬ 86400 < numSeconds d := by
  unfold numSeconds
  cases d with
  | ofNat n =>
    rw [show Int.div (Int.ofNat n) 1000000000 = Int.ofNat (n / 1000000000) from rfl]
    simp only [Int.ofNat_eq_natCast] at h ⊢
    omega
  | negSucc n =>
    rw [show Int.div (Int.negSucc n) 1000000000 = -Int.ofNat ((n + 1) / 1000000000) from rfl]
    simp only [Int.ofNat_eq_natCast]
    omega

/-- The 12 TAI64N bytes of `1970-01-02T00:00:00.000000001` (one nanosecond
past one day after the epoch): big-endian `2^62 + 86400` then nanosecond
count `1`. -/
def cexDateBytes : Bytes := [64, 0, 0, 0, 0, 1, 81, 128, 0, 0, 0, 1]

/-- A fixed envelope whose date is `cexDateBytes`. -/
def cexProto : PackProto :=
  ⟨[], some ⟨cexDateBytes⟩, [1], [2], List.replicate 64 0, [3]⟩

/-- External operations that decode every input to `cexProto` and accept
every signature and ciphertext. -/
def cexOps : ExtOps :=
  ⟨fun _ => .ok cexProto, fun _ => .ok ⟨[]⟩, fun _ _ _ => true,
   fun _ _ _ => .ok [], fun _ => .ok ⟨[]⟩⟩

/-- A key lookup that always succeeds. -/
def cexLookup : Fingerprints → Uuid → Option (PublicKey × Encryptor) :=
  fun _ _ => some (⟨List.replicate 32 0⟩, ⟨[], []⟩)

end PlacerPack

/-- Claim C2 (amended): for a pack that passes signature verification and
AEAD decryption, the timestamp check rejects with the Parse-class error
`"bogus future timestamp on pack"` exactly when the whole-second
truncation of `date - now` exceeds 86,400 — so a date at least 86,401 s
later than now is rejected, a date at or before now + 86,400 s passes,
and (the correction) a date between 86,400 s and 86,401 s in the future
also passes, because `chrono`'s `num_seconds` truncates toward zero. -/
theorem claim_C2 (ops : PlacerPack.ExtOps)
    (keyLookup : PlacerPack.Fingerprints → PlacerPack.Uuid →
      Option (PlacerPack.PublicKey × PlacerPack.Encryptor))
    (now : Int) (bytes : Bytes) (proto : PlacerPack.PackProto) (uuid : PlacerPack.Uuid)
    (pk : PlacerPack.PublicKey) (enc : PlacerPack.Encryptor) (dp : PlacerPack.Tai64n)
    (date : Int) (plaintext : Bytes)
    (h1 : ¬ bytes.length < PlacerPack.PACK_V0_MAGIC_STRING.length)
    (h2 : bytes.take PlacerPack.PACK_V0_MAGIC_STRING.length = PlacerPack.PACK_V0_MAGIC_STRING)
    (hp : ops.protoDecode (bytes.drop PlacerPack.PACK_V0_MAGIC_STRING.length) = .ok proto)
    (hu : ops.uuidParse proto.uuid = .ok uuid)
    (hk : keyLookup ⟨proto.signingKeyFingerprint, proto.encryptionKeyFingerprint⟩ uuid
      = some (pk, enc))
    (hd : proto.date = some dp)
    (ht : PlacerPack.tai64nToDatetimeUtc dp = some date)
    (hsig : proto.signature.length = PlacerPack.SIGNATURE_SIZE)
    (hok : ops.ed25519Verify pk.bytes proto.ciphertext proto.signature = true)
    (hopen : ops.aeadOpen enc.handle (PlacerPack.packAd dp.value
        proto.encryptionKeyFingerprint proto.signingKeyFingerprint) proto.ciphertext
      = .ok plaintext) :
    (86401 * 1000000000 ≤ date - now →
      (PlacerPack.verifyAndDecrypt ops keyLookup now bytes).1
        = .error ⟨.parse, "bogus future timestamp on pack"⟩) ∧
    (date - now ≤ 86400 * 1000000000 →
      (PlacerPack.verifyAndDecrypt ops keyLookup now bytes).1
        ≠ .error ⟨.parse, "bogus future timestamp on pack"⟩) ∧
    ((PlacerPack.verifyAndDecrypt ops keyLookup now bytes).1
        = .error ⟨.parse, "bogus future timestamp on pack"⟩ ↔
      86400 < PlacerPack.numSeconds (date - now)) := by
  have hv : (PlacerPack.verifyAndDecrypt ops keyLookup now bytes).1 =
      if 86400 < PlacerPack.numSeconds (date - now)
      then .error ⟨.parse, "bogus future timestamp on pack"⟩
      else match ops.payloadDecode plaintext with
        | .error _ => .error ⟨.parse, "payload parsing error"⟩
        | .ok payload => .ok ⟨uuid, date,
            some ⟨proto.signingKeyFingerprint, proto.encryptionKeyFingerprint⟩,
            payload.files⟩ := by
    unfold PlacerPack.verifyAndDecrypt
    rw [if_neg h1, if_neg (not_not_intro h2), hp]
    dsimp only
    rw [hu]
    dsimp only
    rw [hk]
    dsimp only
    rw [hd]
    dsimp only
    rw [ht]
    dsimp only
    have hpv : PlacerPack.PublicKey.verify ops.ed25519Verify pk
        proto.ciphertext proto.signature
        = (.ok (), [.verifyCall proto.ciphertext proto.signature true]) := by
      unfold PlacerPack.PublicKey.verify
      rw [if_neg (not_not_intro hsig)]
      dsimp only
      rw [hok]
      simp
    rw [hpv]
    dsimp only
    rw [hopen]
    dsimp only
    simp only [PlacerPack.MAX_PACK_TIMESTAMP_SKEW]
    by_cases hskew : 86400 < PlacerPack.numSeconds (date - now)
    · rw [if_pos hskew, if_pos hskew]
    · rw [if_neg hskew, if_neg hskew]
      cases hpd : ops.payloadDecode plaintext <;> rfl
  refine ⟨?_, ?_, ?_⟩
  · intro hge
    rw [hv, if_pos (PlacerPack.numSeconds_gt_of_ge hge)]
  · intro hle
    rw [hv, if_neg (PlacerPack.numSeconds_not_gt_of_le hle)]
    rcases hx : ops.payloadDecode plaintext with e | payload
    · simp
    · simp
  · rw [hv]
    by_cases hskew : 86400 < PlacerPack.numSeconds (date - now)
    · rw [if_pos hskew]
      exact ⟨fun _ => hskew, fun _ => rfl⟩
    · rw [if_neg hskew]
      constructor
      · intro hc
        exfalso
        rcases hx : ops.payloadDecode plaintext with e | payload
        · rw [hx] at hc
          simp at hc
        · rw [hx] at hc
          simp at hc
      · intro hc
        exact absurd hc hskew

/-- Counterexample to C2 as stated: a pack whose date is one nanosecond
more than 86,400 seconds later than now — strictly beyond the claimed
bound — still decrypts to an `Ok` pack, because `num_seconds` truncates
`86400 s + 1 ns` down to `86400`. -/
theorem claim_C2_counterexample :
    PlacerPack.tai64nToDatetimeUtc ⟨PlacerPack.cexDateBytes⟩
      = some (86400 * 1000000000 + 1) ∧
    (86400 * 1000000000 : Int) < (86400 * 1000000000 + 1) - 0 ∧
    (PlacerPack.verifyAndDecrypt PlacerPack.cexOps PlacerPack.cexLookup 0
        PlacerPack.PACK_V0_MAGIC_STRING).1
      = .ok ⟨⟨[]⟩, 86400 * 1000000000 + 1, some ⟨[1], [2]⟩, []⟩ :=
  ⟨by decide, by decide, by decide⟩

/-- Witness for C2: the amended skew law applied to the concrete pack one
nanosecond past the 86,400-second bound. -/
theorem claim_C2_witness :
    (PlacerPack.verifyAndDecrypt PlacerPack.cexOps PlacerPack.cexLookup 0
        PlacerPack.PACK_V0_MAGIC_STRING).1
      = .error ⟨.parse, "bogus future timestamp on pack"⟩ ↔
    86400 < PlacerPack.numSeconds ((86400 * 1000000000 + 1) - 0) :=
  (claim_C2 PlacerPack.cexOps PlacerPack.cexLookup 0 PlacerPack.PACK_V0_MAGIC_STRING
    PlacerPack.cexProto ⟨[]⟩ ⟨List.replicate 32 0⟩ ⟨[], []⟩ ⟨PlacerPack.cexDateBytes⟩
    (86400 * 1000000000 + 1) []
    (by decide) (by decide) rfl rfl rfl rfl (by decide) (by decide) rfl rfl).2.2

namespace Placer

theorem signingKeyringNew_error_kind (sha256 : Bytes → Bytes) :
    ∀ (entries : List (Bytes × Bytes)) (acc : List (Bytes × PlacerPack.PublicKey))
      (e : Error), signingKeyringNew sha256 entries acc = .error e →
      e.kind = .invalidKey := by
  intro entries
  induction entries with
  | nil =>
    intro acc e h
    simp [signingKeyringNew] at h
  | cons entry rest ih =>
    intro acc e h
    obtain ⟨label, key⟩ := entry
    unfold signingKeyringNew at h
    rcases hf : PlacerPack.PublicKey.fromKeyuri key with e0 | pk
    · rw [hf] at h
      dsimp only at h
      cases h
      rfl
    · rw [hf] at h
      dsimp only at h
      by_cases hdup : mapContains acc (pk.toFingerprint sha256) = true
      · rw [if_pos hdup] at h
        cases h
        rfl
      · rw [if_neg hdup] at h
        exact ih _ e h

theorem encryptionKeyringNew_error_kind (sha256 : Bytes → Bytes) :
    ∀ (entries : List (Bytes × Bytes)) (acc : List (Bytes × Bytes))
      (e : Error), encryptionKeyringNew sha256 entries acc = .error e →
      e.kind = .invalidKey := by
  intro entries
  induction entries with
  | nil =>
    intro acc e h
    simp [encryptionKeyringNew] at h
  | cons entry rest ih =>
    intro acc e h
    obtain ⟨label, key⟩ := entry
    unfold encryptionKeyringNew at h
    by_cases hpfx : Keyuri.ENCRYPTION_KEY_PREFIX.isPrefixOf key = true
    · rw [if_neg (not_not_intro hpfx)] at h
      dsimp only at h
      by_cases hdup : mapContains acc (Keyuri.fingerprint sha256 key) = true
      · rw [if_pos hdup] at h
        cases h
        rfl
      · rw [if_neg hdup] at h
        exact ih _ e h
    · rw [if_pos hpfx] at h
      cases h
      rfl

end Placer

/-- Claim C4 (amended): constructing the signing keyring fails with an
`InvalidKey`-class error on a malformed, wrong-prefix or wrong-length
KeyURI (any `PublicKey::from_keyuri` failure) and on a duplicate
fingerprint — in particular two signing labels with identical KeyURIs
fail with `"duplicate signing key"` — and every construction error of
either keyring is `InvalidKey`-class; the encryption keyring, however,
only checks that each KeyURI starts with `ENCRYPTION_KEY_PREFIX` and that
its raw-string fingerprint is not a duplicate, accepting entries
regardless of any further malformation (see the counterexample). -/
theorem claim_C4 :
    (∀ (sha256 : Bytes → Bytes) (entries : List (Bytes × Bytes))
       (acc : List (Bytes × PlacerPack.PublicKey)) (e : Placer.Error),
      Placer.signingKeyringNew sha256 entries acc = .error e →
      e.kind = .invalidKey) ∧
    (∀ (sha256 : Bytes → Bytes) (l k : Bytes) (rest : List (Bytes × Bytes))
       (acc : List (Bytes × PlacerPack.PublicKey)) (e0 : PlacerPack.Error),
      PlacerPack.PublicKey.fromKeyuri k = .error e0 →
      Placer.signingKeyringNew sha256 ((l, k) :: rest) acc
        = .error ⟨.invalidKey, "invalid Ed25519 KeyURI"⟩) ∧
    (∀ (sha256 : Bytes → Bytes) (l1 l2 k : Bytes) (pk : PlacerPack.PublicKey),
      PlacerPack.PublicKey.fromKeyuri k = .ok pk →
      Placer.signingKeyringNew sha256 [(l1, k), (l2, k)] []
        = .error ⟨.invalidKey, "duplicate signing key"⟩) ∧
    (∀ (sha256 : Bytes → Bytes) (entries acc : List (Bytes × Bytes))
       (e : Placer.Error),
      Placer.encryptionKeyringNew sha256 entries acc = .error e →
      e.kind = .invalidKey) ∧
    (∀ (sha256 : Bytes → Bytes) (l k : Bytes),
      Keyuri.ENCRYPTION_KEY_PREFIX.isPrefixOf k = true →
      Placer.encryptionKeyringNew sha256 [(l, k)] []
        = .ok [(Keyuri.fingerprint sha256 k, k)]) := by
  refine ⟨Placer.signingKeyringNew_error_kind, ?_, ?_,
    Placer.encryptionKeyringNew_error_kind, ?_⟩
  · intro sha256 l k rest acc e0 hf
    unfold Placer.signingKeyringNew
    rw [hf]
  · intro sha256 l1 l2 k pk hf
    unfold Placer.signingKeyringNew
    rw [hf]
    dsimp only
    rw [if_neg (show ¬ Placer.mapContains ([] : List (Bytes × PlacerPack.PublicKey))
        (pk.toFingerprint sha256) = true by simp [Placer.mapContains])]
    unfold Placer.signingKeyringNew
    rw [hf]
    dsimp only
    rw [if_pos (show Placer.mapContains
        (([] : List (Bytes × PlacerPack.PublicKey)) ++ [(pk.toFingerprint sha256, pk)])
        (pk.toFingerprint sha256) = true by simp [Placer.mapContains])]
  · intro sha256 l k hpfx
    unfold Placer.encryptionKeyringNew
    rw [if_neg (not_not_intro hpfx)]
    dsimp only
    rw [if_neg (show ¬ Placer.mapContains ([] : List (Bytes × Bytes))
        (Keyuri.fingerprint sha256 k) = true by simp [Placer.mapContains])]
    unfold Placer.encryptionKeyringNew
    simp

/-- Counterexample to C4 as stated: the encryption keyring accepts the
malformed KeyURI `"secret.key:aes256siv+hks256;x"` (its data region is
far too short to even hold a checksum, as `bech32k::decode` confirms),
because `EncryptionKeyring::new` only tests the string prefix. -/
theorem claim_C4_counterexample :
    Placer.encryptionKeyringNew (fun _ => List.replicate 32 0)
        [([97], Keyuri.ENCRYPTION_KEY_PREFIX ++ [59, 120])] []
      = .ok [(Keyuri.fingerprint (fun _ => List.replicate 32 0)
            (Keyuri.ENCRYPTION_KEY_PREFIX ++ [59, 120]),
          Keyuri.ENCRYPTION_KEY_PREFIX ++ [59, 120])] ∧
    Bech32k.decode (Keyuri.ENCRYPTION_KEY_PREFIX ++ [59, 120])
      = .error .lengthInvalid :=
  ⟨by decide, by decide⟩

/-- Witness for C4: two identical signing KeyURIs are rejected as a
duplicate, and a well-prefixed encryption KeyURI is accepted. -/
theorem claim_C4_witness :
    Placer.signingKeyringNew (fun _ => List.replicate 32 0)
        [([97], PlacerPack.PublicKey.toKeyuri ⟨List.replicate 32 0⟩),
         ([98], PlacerPack.PublicKey.toKeyuri ⟨List.replicate 32 0⟩)] []
      = .error ⟨.invalidKey, "duplicate signing key"⟩ ∧
    Placer.encryptionKeyringNew (fun _ => List.replicate 32 0)
        [([97], Keyuri.ENCRYPTION_KEY_PREFIX)] []
      = .ok [(Keyuri.fingerprint (fun _ => List.replicate 32 0)
          Keyuri.ENCRYPTION_KEY_PREFIX, Keyuri.ENCRYPTION_KEY_PREFIX)] :=
  ⟨claim_C4.2.2.1 (fun _ => List.replicate 32 0) [97] [98]
     (PlacerPack.PublicKey.toKeyuri ⟨List.replicate 32 0⟩) ⟨List.replicate 32 0⟩
     (by decide),
   claim_C4.2.2.2.2 (fun _ => List.replicate 32 0) [97] Keyuri.ENCRYPTION_KEY_PREFIX
     (by decide)⟩
